import Mathlib

/-!
A verification development for the Recipe-Rag-Assistant repository.

The Python sources under `scripts/` and `backend/app/` are shallowly embedded:
pure functions become Lean functions, Python strings become `String`/`List Char`,
Python `float` arithmetic on parsed quantities is modeled exactly over `ℚ`
(the parsed literals are short decimals/fractions, where CPython's binary
rounding is observationally invisible for the properties below; overflow to
`inf` on hundreds-of-digits literals is outside the model), `None`/exceptions
become `Option`, and Python truthiness is modeled explicitly.  Character
classes `\s`, `\d`, `[a-zA-Z]` of the `re` module are modeled over their ASCII
ranges (the claims quantify over ASCII data; Unicode digits/whitespace are
outside the model).
-/

namespace RecipeRag

/-! ## Basic character classes and Python string helpers (`str.strip` etc.) -/

/-- ASCII fragment of Python's regex class `\s` / `str.strip()` whitespace. -/
def isSpaceCh (c : Char) : Bool :=
  c = ' ' || c = '\t' || c = '\n' || c = '\r' || c = '\x0b' || c = '\x0c'

/-- ASCII fragment of Python's regex class `\d`. -/
def isDigitCh (c : Char) : Bool := '0' ≤ c && c ≤ '9'

/-- The regex class `[a-zA-Z]` (exactly ASCII letters, as in the source). -/
def isAlphaCh (c : Char) : Bool := ('a' ≤ c && c ≤ 'z') || ('A' ≤ c && c ≤ 'Z')

/-- Drop the leading run of characters satisfying `p` (one side of `strip`). -/
def stripLeftBy (p : Char → Bool) (cs : List Char) : List Char := cs.dropWhile p

/-- Python `str.strip(chars)`: remove the characters satisfying `p` from both ends. -/
def pyStripBy (p : Char → Bool) (cs : List Char) : List Char :=
  ((stripLeftBy p ((stripLeftBy p cs).reverse)).reverse)

/-- Python `str.strip()` on the character-list representation. -/
def pyStripChars (cs : List Char) : List Char := pyStripBy isSpaceCh cs

/-- Python `str.strip()`. -/
def pyStrip (s : String) : String := String.mk (pyStripChars s.toList)

/-- Python `str.lower()` (ASCII case mapping; the unit tokens are ASCII). -/
def pyLower (s : String) : String := String.mk (s.toList.map Char.toLower)

/-- Length of the leading run of characters satisfying `p`. -/
def runLen (p : Char → Bool) (cs : List Char) : Nat := (cs.takeWhile p).length

/-! ## Backtracking search combinators

The ingredient regex
`^\s*(?P<qty>\d+(?:[ \t]\d+\/\d+|\/\d+|\.\d+)?)?\s*(?P<unit>[a-zA-Z]+)?\s*(?P<name>.+)$`
from `scripts/ingest.py` is implemented as an explicit leftmost-greedy
backtracking matcher.  `tryKs f n` realises a greedy `\s*`-style choice point
(prefer consuming `n` characters, retry down to `0`); `tryLens f n` realises a
greedy `+`-style choice point (prefer `n`, retry down to `1`, then fail). -/

def tryKs {α : Type} (f : Nat → Option α) : Nat → Option α
  | 0 => f 0
  | n+1 =>
    match f (n+1) with
    | some x => some x
    | none => tryKs f n

def tryLens {α : Type} (f : Nat → Option α) : Nat → Option α
  | 0 => none
  | n+1 =>
    match f (n+1) with
    | some x => some x
    | none => tryLens f n

def firstSome {α β : Type} (f : α → Option β) : List α → Option β
  | [] => none
  | a :: as =>
    match f a with
    | some b => some b
    | none => firstSome f as

/-- `[n, n-1, ..., 1]`: candidate lengths for a greedy `\d+`, in preference order. -/
def descLens : Nat → List Nat
  | 0 => []
  | n+1 => (n+1) :: descLens n

/-! ## The ingredient regex, as a leftmost-greedy matcher -/

/-- The trailing `(?P<name>.+)$` of `ING_RE`: `.` excludes `'\n'` and the
anchor `$` matches at the end of the string or just before a final newline,
so it matches exactly when the remainder is nonempty up to an optional final
newline with no interior newline. -/
def matchName (cs : List Char) : Option (List Char) :=
  if (cs.takeWhile (fun c => c ≠ '\n')).isEmpty then none
  else if (cs.dropWhile (fun c => c ≠ '\n')).isEmpty ||
      cs.dropWhile (fun c => c ≠ '\n') = ['\n'] then
    some (cs.takeWhile (fun c => c ≠ '\n'))
  else none

/-- `\s*(?P<name>.+)$` starting at `cs`. -/
def tryWsName (cs : List Char) : Option (List Char) :=
  tryKs (fun k => matchName (cs.drop k)) (runLen isSpaceCh cs)

/-- `(?P<unit>[a-zA-Z]+)?\s*(?P<name>.+)$`: a greedy optional alphabetic
token (longest first, then absent), then whitespace, then the name. -/
def tryUnitName (cs : List Char) : Option (Option (List Char) × List Char) :=
  match tryLens (fun len => (tryWsName (cs.drop len)).map
      (fun nm => (some (cs.take len), nm))) (runLen isAlphaCh cs) with
  | some r => some r
  | none => (tryWsName cs).map (fun nm => (none, nm))

/-- `\s*(?P<unit>[a-zA-Z]+)?\s*(?P<name>.+)$` starting at `cs`. -/
def tryAfterQty (cs : List Char) : Option (Option (List Char) × List Char) :=
  tryKs (fun k => tryUnitName (cs.drop k)) (runLen isSpaceCh cs)

/-- Candidates for the optional quantity suffix `(?:[ \t]\d+\/\d+|\/\d+|\.\d+)?`
in backtracking preference order: each candidate is the consumed suffix paired
with the remaining input.  Inside the first alternative the `\d+` before `/`
is effectively deterministic (a shorter run would put a digit where `/` is
required), while each trailing `\d+` backtracks over its possible lengths. -/
def qtySuffixCands (cs : List Char) : List (List Char × List Char) :=
  (match cs with
   | [] => []
   | c0 :: rest =>
     (if c0 = ' ' || c0 = '\t' then
        let d1 := runLen isDigitCh rest
        if d1 = 0 then []
        else
          let ds1 := rest.take d1
          match rest.drop d1 with
          | '/' :: rest2 =>
            let d2 := runLen isDigitCh rest2
            (descLens d2).map (fun l =>
              (c0 :: (ds1 ++ '/' :: rest2.take l), rest2.drop l))
          | _ => []
      else []) ++
     (if c0 = '/' then
        let d2 := runLen isDigitCh rest
        (descLens d2).map (fun l => ('/' :: rest.take l, rest.drop l))
      else []) ++
     (if c0 = '.' then
        let d2 := runLen isDigitCh rest
        (descLens d2).map (fun l => ('.' :: rest.take l, rest.drop l))
      else [])) ++ [([], cs)]

/-- The three capture groups of `ING_RE`. -/
structure IngGroups where
  qty : Option (List Char)
  unit : Option (List Char)
  name : List Char
deriving Repr, DecidableEq

/-- `(?P<qty>\d+(?:...)?)?\s*(?P<unit>...)?\s*(?P<name>.+)$` at `cs`:
try the quantity with its leading `\d+` greedy (longest length first, each
with the suffix alternatives in order), then the quantity absent. -/
def tryQtyAt (cs : List Char) : Option IngGroups :=
  match tryLens (fun len =>
      let ds := cs.take len
      firstSome (fun sc =>
        (tryAfterQty sc.2).map (fun un => ⟨some (ds ++ sc.1), un.1, un.2⟩))
        (qtySuffixCands (cs.drop len)))
    (runLen isDigitCh cs) with
  | some g => some g
  | none => (tryAfterQty cs).map (fun un => ⟨none, un.1, un.2⟩)

/-- `ING_RE.match(cs)`: the leading `\s*` is a greedy choice point over the
whitespace prefix. -/
def ingMatch (cs : List Char) : Option IngGroups :=
  tryKs (fun k => tryQtyAt (cs.drop k)) (runLen isSpaceCh cs)

/-! ## Numeric string parsing (`int(...)`, `float(...)`, `Fraction(...)`)

Python `float` results are modeled exactly over `ℚ`; the `inf`/`nan`
literals and underscore digit grouping accepted by CPython are outside the
model (no claim exercises them). -/

/-- Value of a nonempty all-digit string. -/
def natOfDigits (cs : List Char) : Nat :=
  cs.foldl (fun a c => a * 10 + (c.toNat - 48)) 0

/-- A nonempty run of ASCII digits, as a number. -/
def parseNatQ (cs : List Char) : Option Nat :=
  if cs ≠ [] ∧ cs.all isDigitCh then some (natOfDigits cs) else none

/-- Python `int(str)`: surrounding whitespace, an optional sign, digits. -/
def pyInt (s : String) : Option Int :=
  let cs := pyStripChars s.toList
  if cs.head? = some '+' then (parseNatQ cs.tail).map Int.ofNat
  else if cs.head? = some '-' then (parseNatQ cs.tail).map (fun n => -(n : Int))
  else (parseNatQ cs).map Int.ofNat

/-- An unsigned decimal literal `digits[.digits][(e|E)[sign]digits]`
(also `.digits...` and `digits.`), evaluated exactly. -/
def decimalLit (cs : List Char) : Option ℚ :=
  let intD := cs.takeWhile isDigitCh
  let rest0 := cs.dropWhile isDigitCh
  let hasDot : Bool := rest0.head? = some '.'
  let afterDot := if hasDot then rest0.tail else rest0
  let fracD := if hasDot then afterDot.takeWhile isDigitCh else []
  let rest1 := if hasDot then afterDot.dropWhile isDigitCh else rest0
  if intD = [] ∧ fracD = [] then none
  else
    let mantissa : ℚ := (natOfDigits intD : ℚ) + (natOfDigits fracD : ℚ) / 10 ^ fracD.length
    match rest1 with
    | [] => some mantissa
    | e :: rest2 =>
      if e = 'e' ∨ e = 'E' then
        let sgnDs : Bool × List Char :=
          match rest2 with
          | '+' :: r => (true, r)
          | '-' :: r => (false, r)
          | r => (true, r)
        if sgnDs.2 ≠ [] ∧ sgnDs.2.all isDigitCh then
          let ex := natOfDigits sgnDs.2
          some (if sgnDs.1 then mantissa * 10 ^ ex else mantissa / 10 ^ ex)
        else none
      else none

/-- Python `float(str)` on numeric literals (exact value over `ℚ`). -/
def pyFloat (s : String) : Option ℚ :=
  let cs := pyStripChars s.toList
  if cs.head? = some '+' then decimalLit cs.tail
  else if cs.head? = some '-' then (decimalLit cs.tail).map Neg.neg
  else decimalLit cs

/-- The unsigned body of Python `Fraction(str)`: either `digits/digits`
(`ZeroDivisionError` on a zero denominator, hence `none`) or a decimal
literal. -/
def fractionCore (cs : List Char) : Option ℚ :=
  let num := cs.takeWhile isDigitCh
  let rest := cs.dropWhile isDigitCh
  match rest with
  | '/' :: den =>
    if num ≠ [] ∧ den ≠ [] ∧ den.all isDigitCh then
      if natOfDigits den = 0 then none
      else some ((natOfDigits num : ℚ) / (natOfDigits den : ℚ))
    else none
  | _ => decimalLit cs

/-- Python `Fraction(str)` (exceptions become `none`). -/
def pyFraction (s : String) : Option ℚ :=
  let cs := pyStripChars s.toList
  if cs.head? = some '+' then fractionCore cs.tail
  else if cs.head? = some '-' then (fractionCore cs.tail).map Neg.neg
  else fractionCore cs

/-- `parse_quantity` from `scripts/ingest.py` (lines 87-100): mixed numbers
`"1 1/2"`, plain fractions, and decimal literals; every failure is caught
and becomes `None`. -/
def parse_quantity (qstr : String) : Option ℚ :=
  if qstr = "" then none
  else
    let cs := pyStripChars qstr.toList
    if (' ' ∈ cs) ∧ ('/' ∈ cs) then
      let whole := String.mk (cs.takeWhile (fun c => c ≠ ' '))
      let frac := String.mk ((cs.dropWhile (fun c => c ≠ ' ')).tail)
      match pyInt whole, pyFraction frac with
      | some w, some f => some ((w : ℚ) + f)
      | _, _ => none
    else if '/' ∈ cs then pyFraction (String.mk cs)
    else pyFloat (String.mk cs)

/-! ## Unit normalization -/

/-- `UNIT_MAP` from `scripts/ingest.py` (lines 103-113). -/
def UNIT_MAP : List (String × String) :=
  [("tbsp", "tablespoon"), ("tbs", "tablespoon"), ("tablespoons", "tablespoon"),
   ("tbsp.", "tablespoon"),
   ("tsp", "teaspoon"), ("tsps", "teaspoon"), ("teaspoons", "teaspoon"),
   ("cup", "cup"), ("cups", "cup"),
   ("g", "gram"), ("gram", "gram"), ("grams", "gram"),
   ("kg", "kilogram"),
   ("oz", "ounce"), ("ounce", "ounce"), ("ounces", "ounce"),
   ("lb", "pound"), ("pound", "pound"), ("pounds", "pound"),
   ("clove", "clove"), ("cloves", "clove"),
   ("slice", "slice"), ("slices", "slice")]

/-- `UNIT_MAP.get(u, u)`. -/
def unitMapGet (u : String) : String :=
  ((UNIT_MAP.find? (fun p => p.1 = u)).map (fun p => p.2)).getD u

/-- Python `str.rstrip('.')`. -/
def rstripDots (s : String) : String :=
  String.mk ((s.toList.reverse.dropWhile (fun c => c = '.')).reverse)

/-- `normalize_unit` from `scripts/ingest.py` (lines 116-120). -/
def normalize_unit (u : Option String) : Option String :=
  match u with
  | none => none
  | some s =>
    if s = "" then none
    else some (unitMapGet (rstripDots (pyStrip (pyLower s))))

/-! ## `parse_ingredient` -/

/-- The `Ingredient` record produced by `parse_ingredient`. -/
structure Ingredient where
  raw : String
  quantity : Option ℚ
  unit : Option String
  name : String
deriving Repr, DecidableEq

/-- `parse_ingredient` from `scripts/ingest.py` (lines 126-135): match
`ING_RE`; on failure fall back to the whole (stripped) line as `name`.
A matched `qty`/`unit` group is necessarily nonempty, so Python's
truthiness tests on the groups coincide with `Option` matching. -/
def parse_ingredient (ing_raw : String) : Ingredient :=
  match ingMatch ing_raw.toList with
  | none => ⟨ing_raw, none, none, pyStrip ing_raw⟩
  | some g =>
    let quantity := match g.qty with
      | some q => parse_quantity (String.mk q)
      | none => none
    ⟨ing_raw, quantity, normalize_unit (g.unit.map String.mk),
      pyStrip (String.mk g.name)⟩

/-! ## A model of Python's `json` module (used by `parse_csv_cell`)

`json.loads` is a recursive-descent parser; numbers are stored exactly over
`ℚ` together with their int/float status.  The `NaN`/`Infinity` extensions,
lone-surrogate `\u` escapes and huge-literal float rounding of CPython are
outside the model (no claim exercises them). -/

/-- The opening and closing curly brace characters (written via code points). -/
def lbraceCh : Char := Char.ofNat 123

def rbraceCh : Char := Char.ofNat 125

/-- The single-quote character. -/
def squoteCh : Char := Char.ofNat 39

/-- A JSON value, as loaded by `json.loads`. -/
inductive JVal where
  | jnull : JVal
  | jbool (b : Bool) : JVal
  | jnum (isIntegral : Bool) (q : ℚ) : JVal
  | jstr (s : String) : JVal
  | jarr (xs : List JVal) : JVal
  | jobj (fields : List (String × JVal)) : JVal
deriving Repr

/-- JSON insignificant whitespace. -/
def jsonWsCh (c : Char) : Bool := c = ' ' || c = '\t' || c = '\n' || c = '\r'

def skipWs (cs : List Char) : List Char := cs.dropWhile jsonWsCh

def hexVal (c : Char) : Option Nat :=
  if '0' ≤ c ∧ c ≤ '9' then some (c.toNat - 48)
  else if 'a' ≤ c ∧ c ≤ 'f' then some (c.toNat - 87)
  else if 'A' ≤ c ∧ c ≤ 'F' then some (c.toNat - 55)
  else none

def hex4 (a b c d : Char) : Option Nat := do
  let x1 ← hexVal a
  let x2 ← hexVal b
  let x3 ← hexVal c
  let x4 ← hexVal d
  pure (((x1 * 16 + x2) * 16 + x3) * 16 + x4)

/-- Body of a JSON string after the opening quote: returns the decoded
characters and the input after the closing quote.  Unescaped control
characters are rejected (strict mode), `\uXXXX` surrogate pairs are
combined. -/
def parseJStrBody : Nat → List Char → Option (List Char × List Char)
  | 0, _ => none
  | _+1, [] => none
  | _+1, '"' :: rest => some ([], rest)
  | f+1, '\\' :: 'u' :: h1 :: h2 :: h3 :: h4 :: rest =>
    (hex4 h1 h2 h3 h4).bind (fun n =>
      if 0xD800 ≤ n ∧ n < 0xDC00 then
        match rest with
        | '\\' :: 'u' :: g1 :: g2 :: g3 :: g4 :: rest2 =>
          (hex4 g1 g2 g3 g4).bind (fun m =>
            if 0xDC00 ≤ m ∧ m < 0xE000 then
              (parseJStrBody f rest2).map (fun p =>
                (Char.ofNat (0x10000 + (n - 0xD800) * 0x400 + (m - 0xDC00)) :: p.1, p.2))
            else
              (parseJStrBody f ('\\' :: 'u' :: g1 :: g2 :: g3 :: g4 :: rest2)).map
                (fun p => (Char.ofNat n :: p.1, p.2)))
        | r2 => (parseJStrBody f r2).map (fun p => (Char.ofNat n :: p.1, p.2))
      else (parseJStrBody f rest).map (fun p => (Char.ofNat n :: p.1, p.2)))
  | f+1, '\\' :: e :: rest =>
    let ec : Option Char :=
      match e with
      | '"' => some '"'
      | '\\' => some '\\'
      | '/' => some '/'
      | 'b' => some '\x08'
      | 'f' => some '\x0c'
      | 'n' => some '\n'
      | 'r' => some '\r'
      | 't' => some '\t'
      | _ => none
    ec.bind (fun c => (parseJStrBody f rest).map (fun p => (c :: p.1, p.2)))
  | f+1, c :: rest =>
    if c.toNat < 0x20 then none
    else (parseJStrBody f rest).map (fun p => (c :: p.1, p.2))

/-- A JSON string body with ample fuel (each step consumes at least one
character). -/
def parseJStr (cs : List Char) : Option (List Char × List Char) :=
  parseJStrBody (cs.length + 1) cs

/-- An optional exponent suffix body (after `e`/`E`). -/
def parseJExp (r : List Char) : Option (Int × List Char) :=
  let sgnE : Bool × List Char :=
    match r with
    | '+' :: r2 => (true, r2)
    | '-' :: r2 => (false, r2)
    | r2 => (true, r2)
  let ds := sgnE.2.takeWhile isDigitCh
  if ds = [] then none
  else some ((if sgnE.1 then (natOfDigits ds : Int) else -(natOfDigits ds : Int)),
    sgnE.2.dropWhile isDigitCh)

/-- A JSON number: `-? (0 | [1-9][0-9]*) (.digits)? ((e|E)sign?digits)?`;
returns (is-integral, exact value) and the remaining input. -/
def parseJNum (cs : List Char) : Option ((Bool × ℚ) × List Char) :=
  let sgn : Bool := cs.head? = some '-'
  let cs1 := if sgn then cs.tail else cs
  let intOk : Option (Nat × List Char) :=
    match cs1 with
    | '0' :: rest => some (0, rest)
    | c :: _ =>
      if isDigitCh c ∧ c ≠ '0' then
        some (natOfDigits (cs1.takeWhile isDigitCh), cs1.dropWhile isDigitCh)
      else none
    | [] => none
  intOk.bind (fun ip =>
    let fracPart : Option (Option (List Char) × List Char) :=
      match ip.2 with
      | '.' :: r =>
        let fd := r.takeWhile isDigitCh
        if fd = [] then none else some (some fd, r.dropWhile isDigitCh)
      | r => some (none, r)
    fracPart.bind (fun fp =>
      let expPart : Option (Option Int × List Char) :=
        match fp.2 with
        | 'e' :: r => (parseJExp r).map (fun q => (some q.1, q.2))
        | 'E' :: r => (parseJExp r).map (fun q => (some q.1, q.2))
        | r => some (none, r)
      expPart.map (fun ep =>
        let fd := fp.1.getD []
        let mantissa : ℚ := (ip.1 : ℚ) + (natOfDigits fd : ℚ) / 10 ^ fd.length
        let withExp : ℚ :=
          match ep.1 with
          | none => mantissa
          | some e => if 0 ≤ e then mantissa * 10 ^ e.toNat else mantissa / 10 ^ (-e).toNat
        (((fp.1.isNone && ep.1.isNone : Bool), if sgn then -withExp else withExp), ep.2))))

/-- Python `dict` insertion semantics while building an object: a repeated
key keeps its first position but takes the latest value. -/
def dictInsert (fields : List (String × JVal)) (k : String) (v : JVal) :
    List (String × JVal) :=
  if fields.any (fun p => p.1 = k) then
    fields.map (fun p => if p.1 = k then (k, v) else p)
  else fields ++ [(k, v)]

mutual

/-- `json.loads` value parser (fuel-indexed; the fuel given at top level is
ample for every input). -/
def parseJVal : Nat → List Char → Option (JVal × List Char)
  | 0, _ => none
  | fuel+1, cs =>
    let cs := skipWs cs
    match cs with
    | [] => none
    | c :: rest =>
      if c = '"' then (parseJStr rest).map (fun p => (JVal.jstr (String.mk p.1), p.2))
      else if c = '[' then
        (parseJArr fuel rest true).map (fun p => (JVal.jarr p.1, p.2))
      else if c = lbraceCh then
        (parseJObj fuel rest true).map (fun p =>
          (JVal.jobj (p.1.foldl (fun acc kv => dictInsert acc kv.1 kv.2) []), p.2))
      else if cs.take 4 = ['t', 'r', 'u', 'e'] then some (JVal.jbool true, cs.drop 4)
      else if cs.take 5 = ['f', 'a', 'l', 's', 'e'] then some (JVal.jbool false, cs.drop 5)
      else if cs.take 4 = ['n', 'u', 'l', 'l'] then some (JVal.jnull, cs.drop 4)
      else (parseJNum cs).map (fun p => (JVal.jnum p.1.1 p.1.2, p.2))

/-- Elements of a JSON array after `[` (or after a `,`). -/
def parseJArr : Nat → List Char → Bool → Option (List JVal × List Char)
  | 0, _, _ => none
  | fuel+1, cs, isFirst =>
    let cs := skipWs cs
    if isFirst ∧ cs.head? = some ']' then some ([], cs.tail)
    else
      (parseJVal fuel cs).bind (fun p =>
        let rest := skipWs p.2
        match rest with
        | ',' :: r => (parseJArr fuel r false).map (fun q => (p.1 :: q.1, q.2))
        | ']' :: r => some ([p.1], r)
        | _ => none)

/-- Members of a JSON object after the opening brace (or after a `,`),
in textual order. -/
def parseJObj : Nat → List Char → Bool → Option (List (String × JVal) × List Char)
  | 0, _, _ => none
  | fuel+1, cs, isFirst =>
    let cs := skipWs cs
    if isFirst ∧ cs.head? = some rbraceCh then some ([], cs.tail)
    else
      match cs with
      | '"' :: kr =>
        (parseJStr kr).bind (fun kp =>
          match skipWs kp.2 with
          | ':' :: vr =>
            (parseJVal fuel vr).bind (fun vp =>
              let rest := skipWs vp.2
              match rest with
              | ',' :: r =>
                (parseJObj fuel r false).map (fun q =>
                  ((String.mk kp.1, vp.1) :: q.1, q.2))
              | rc :: r =>
                if rc = rbraceCh then some ([(String.mk kp.1, vp.1)], r) else none
              | [] => none)
          | _ => none)
      | _ => none

end

/-- `json.loads(s)`: parse one value with ample fuel; only trailing
whitespace may remain. -/
def jsonLoads (s : String) : Option JVal :=
  match parseJVal (2 * s.length + 8) s.toList with
  | some (v, rest) => if skipWs rest = [] then some v else none
  | none => none

/-! ## Python `str`/`repr` of loaded JSON values, and `json.dumps` -/

/-- The smallest power of ten that clears the (reduced) denominator `d`;
used to print a decimal-parsed float the way `repr` does. -/
def pow10Exp (d : Nat) : Nat :=
  (((List.range (d + 1)).find? (fun k => d ∣ 10 ^ k))).getD 0

/-- `repr` of a CPython float whose exact value is the rational `q`
(decimal-literal floats round-trip through their shortest form). -/
def floatRender (q : ℚ) : String :=
  let sign := if q < 0 then "-" else ""
  let aq : ℚ := |q|
  let k := pow10Exp aq.den
  let m : Nat := (aq * 10 ^ k).num.toNat
  if k = 0 then sign ++ toString m ++ ".0"
  else
    let ip := m / 10 ^ k
    let fp := m % 10 ^ k
    let fpDigits := toString fp
    let pad := String.mk (List.replicate (k - fpDigits.length) '0')
    sign ++ toString ip ++ "." ++ pad ++ fpDigits

/-- Rendering of a loaded JSON number by `str`/`repr`/`json.dumps`:
ints print exactly, floats through `floatRender`. -/
def numRender (isIntegral : Bool) (q : ℚ) : String :=
  if isIntegral then toString q.num else floatRender q

/-- A lowercase hexadecimal digit. -/
def hexDigitCh (n : Nat) : Char :=
  if n < 10 then Char.ofNat (48 + n) else Char.ofNat (87 + n)

/-- Python `repr` of a string (as used inside `str` of a list/dict):
single quotes unless the string contains a single quote and no double
quote; `\n`, `\r`, `\t`, backslash, the quote and other control characters
are escaped. -/
def pyReprStr (s : String) : String :=
  let qc : Char :=
    if squoteCh ∈ s.toList ∧ '"' ∉ s.toList then '"' else squoteCh
  let esc : Char → List Char := fun c =>
    if c = '\\' then ['\\', '\\']
    else if c = qc then ['\\', qc]
    else if c = '\n' then ['\\', 'n']
    else if c = '\r' then ['\\', 'r']
    else if c = '\t' then ['\\', 't']
    else if c.toNat < 32 ∨ c.toNat = 127 then
      ['\\', 'x', hexDigitCh (c.toNat / 16), hexDigitCh (c.toNat % 16)]
    else [c]
  String.mk (qc :: (s.toList.flatMap esc) ++ [qc])

mutual

/-- Python `str()` of a JSON-loaded object (`str` of containers is `repr`). -/
def pyStr : JVal → String
  | JVal.jstr s => s
  | JVal.jnull => "None"
  | JVal.jbool true => "True"
  | JVal.jbool false => "False"
  | JVal.jnum b q => numRender b q
  | JVal.jarr xs => "[" ++ String.intercalate (", ") (pyReprList xs) ++ "]"
  | JVal.jobj fs =>
    String.mk [lbraceCh] ++ String.intercalate (", ") (pyReprFields fs) ++
      String.mk [rbraceCh]

/-- Python `repr()` of a JSON-loaded object. -/
def pyRepr : JVal → String
  | JVal.jstr s => pyReprStr s
  | v => pyStr v

def pyReprList : List JVal → List String
  | [] => []
  | v :: vs => pyRepr v :: pyReprList vs

def pyReprFields : List (String × JVal) → List String
  | [] => []
  | (k, v) :: fs => (pyReprStr k ++ ": " ++ pyRepr v) :: pyReprFields fs

end

/-- The string escaping of `json.dumps(..., ensure_ascii=False)`. -/
def jsonQuote (s : String) : String :=
  let esc : Char → List Char := fun c =>
    if c = '"' then ['\\', '"']
    else if c = '\\' then ['\\', '\\']
    else if c = '\n' then ['\\', 'n']
    else if c = '\r' then ['\\', 'r']
    else if c = '\t' then ['\\', 't']
    else if c = '\x08' then ['\\', 'b']
    else if c = '\x0c' then ['\\', 'f']
    else if c.toNat < 32 then
      '\\' :: 'u' :: '0' :: '0' ::
        [(hexDigit (c.toNat / 16)), (hexDigit (c.toNat % 16))]
    else [c]
  String.mk ('"' :: (s.toList.flatMap esc) ++ ['"'])
where
  hexDigit (n : Nat) : Char := if n < 10 then Char.ofNat (48 + n) else Char.ofNat (87 + n)

mutual

/-- `json.dumps(v, ensure_ascii=False)` with the default separators. -/
def jsonDumps : JVal → String
  | JVal.jnull => "null"
  | JVal.jbool true => "true"
  | JVal.jbool false => "false"
  | JVal.jnum b q => numRender b q
  | JVal.jstr s => jsonQuote s
  | JVal.jarr xs => "[" ++ String.intercalate (", ") (jsonDumpsList xs) ++ "]"
  | JVal.jobj fs =>
    String.mk [lbraceCh] ++ String.intercalate (", ") (jsonDumpsFields fs) ++
      String.mk [rbraceCh]

def jsonDumpsList : List JVal → List String
  | [] => []
  | v :: vs => jsonDumps v :: jsonDumpsList vs

def jsonDumpsFields : List (String × JVal) → List String
  | [] => []
  | (k, v) :: fs => (jsonQuote k ++ ": " ++ jsonDumps v) :: jsonDumpsFields fs

end

/-! ## CSV multi-value cells -/

/-- Substring test (Python's `sub in s`). -/
def hasSub (sub : List Char) : List Char → Bool
  | [] => sub.isPrefixOf []
  | c :: rest => sub.isPrefixOf (c :: rest) || hasSub sub rest

/-- Python `str.split(sep)` for a nonempty separator (leftmost,
non-overlapping); fueled for structural recursion, with ample fuel at the
call site. -/
def splitOnFuel (sep : List Char) : Nat → List Char → List Char → List (List Char)
  | 0, cur, _ => [cur.reverse]
  | _+1, cur, [] => [cur.reverse]
  | f+1, cur, c :: rest =>
    if sep.isPrefixOf (c :: rest) ∧ sep ≠ [] then
      cur.reverse :: splitOnFuel sep f [] ((c :: rest).drop sep.length)
    else splitOnFuel sep f (c :: cur) rest

/-- Python `str.split(sep)` (nonempty `sep`). -/
def pySplit (s : String) (sep : String) : List String :=
  (splitOnFuel sep.toList (s.toList.length + 1) [] s.toList).map
    (fun l => String.mk l)

/-- Line-break characters of Python `str.splitlines` (ASCII range;
`\x85`/` `/` ` are outside the model). -/
def isLineBreakCh (c : Char) : Bool :=
  c = '\n' || c = '\r' || c = '\x0b' || c = '\x0c' ||
  c = '\x1c' || c = '\x1d' || c = '\x1e'

def pySplitlinesAux (cur : List Char) : List Char → List (List Char)
  | [] => if cur.isEmpty then [] else [cur]
  | '\r' :: '\n' :: rest => cur :: pySplitlinesAux [] rest
  | c :: rest =>
    if isLineBreakCh c then cur :: pySplitlinesAux [] rest
    else pySplitlinesAux (cur ++ [c]) rest

/-- Python `str.splitlines()`. -/
def pySplitlines (s : String) : List String :=
  (pySplitlinesAux [] s.toList).map String.mk

/-- `split_delimited_field` from `scripts/ingest.py` (lines 138-152):
split on the first delimiter found in priority order `"||"`, newline,
`";"`, `"|"`; strip the parts and drop the empty ones. -/
def split_delimited_field (val : Option String) : List String :=
  match val with
  | none => []
  | some s =>
    if s = "" then []
    else
      let cs := s.toList
      if hasSub ['|', '|'] cs then
        ((pySplit s ("||")).map pyStrip).filter (fun p => p ≠ "")
      else if '\n' ∈ cs then
        ((pySplitlines s).map pyStrip).filter (fun p => p ≠ "")
      else if ';' ∈ cs then
        ((pySplit s (";")).map pyStrip).filter (fun p => p ≠ "")
      else if '|' ∈ cs then
        ((pySplit s ("|")).map pyStrip).filter (fun p => p ≠ "")
      else [pyStrip s]

/-- `parse_csv_cell` from `scripts/ingest.py` (lines 155-174): strip, try
JSON when the cell starts with a bracket or brace (array → elements
stringified, object → its `json.dumps`), otherwise split on delimiters. -/
def parse_csv_cell (val : Option String) : List String :=
  match val with
  | none => []
  | some s =>
    if s = "" then []
    else
      let v := pyStrip s
      let vh := v.toList.head?
      if vh = some '[' ∨ vh = some lbraceCh then
        match jsonLoads v with
        | some (JVal.jarr xs) => xs.map pyStr
        | some (JVal.jobj fs) => [jsonDumps (JVal.jobj fs)]
        | _ => split_delimited_field (some v)
      else split_delimited_field (some v)

/-! ## Record normalization (`normalize_recipe`, lines 177-191) -/

/-- Python `a or b` on optional strings: the left operand when truthy
(present and nonempty), otherwise the right operand as-is. -/
def pyOrOpt (a b : Option String) : Option String :=
  match a with
  | some s => if s ≠ "" then some s else b
  | none => b

/-- Truthiness of an optional string. -/
def truthyS : Option String → Bool
  | some s => s ≠ ""
  | none => false

/-- An entry of a raw record's `ingredients` list: a free-text line, or an
already-structured mapping (passed through unchanged by the normalizer and
therefore modeled opaquely by a tag). -/
inductive RawIng where
  | text (s : String) : RawIng
  | struct (tag : Nat) : RawIng
deriving Repr, DecidableEq

/-- An entry of a canonical recipe's `ingredients` list. -/
inductive CanIng where
  | parsed (i : Ingredient) : CanIng
  | struct (tag : Nat) : CanIng
deriving Repr, DecidableEq

/-- A raw recipe record, restricted to the fields `normalize_recipe` reads.
The `nutrition` payload is only passed through, so it is modeled as an
opaque optional value (`none` = absent or falsy, normalized to `{}`). -/
structure RawRecord where
  id? : Option String
  url? : Option String
  title? : Option String
  source_url? : Option String
  ingredients : List RawIng
  steps : List String
  nutrition? : Option String
deriving Repr, DecidableEq

/-- A canonical recipe as written by the ingestion pipeline. -/
structure CanonicalRecipe where
  id : String
  title : String
  ingredients : List CanIng
  steps : List String
  nutrition : Option String
  source_url : Option String
deriving Repr, DecidableEq

/-- `normalize_recipe` from `scripts/ingest.py` (lines 177-191): resolve the
identifier as `id or url or (title or '')[:64]`, default the title, parse
string ingredients, pass structured ones through. -/
def normalize_recipe (r : RawRecord) : CanonicalRecipe :=
  let titleCut : String := ((pyOrOpt r.title? (some "")).getD "").take 64
  let rid : String := (pyOrOpt (pyOrOpt r.id? r.url?) (some titleCut)).getD ""
  { id := rid,
    title := (pyOrOpt r.title? (some "Untitled")).getD "",
    ingredients := r.ingredients.map (fun i =>
      match i with
      | RawIng.text s => CanIng.parsed (parse_ingredient s)
      | RawIng.struct t => CanIng.struct t),
    steps := r.steps,
    nutrition := if truthyS r.nutrition? then r.nutrition? else none,
    source_url := pyOrOpt r.url? r.source_url? }

/-! ## CSV rows and the per-row item of `run` (lines 217-232) -/

/-- A CSV row as produced by `csv.DictReader`: header/value pairs (headers
are distinct in a dict). -/
abbrev CsvRow := List (String × String)

/-- `row.get(k)`. -/
def rowGet (row : CsvRow) (k : String) : Option String :=
  (row.find? (fun p => p.1 = k)).map (fun p => p.2)

/-- The `item` dictionary built for a CSV row in `run` (lines 220-232),
including the description fallback for empty steps; the item has no `url`
key. -/
def csvItem (row : CsvRow) : RawRecord :=
  let title := pyOrOpt (pyOrOpt (pyOrOpt (rowGet row ("title")) (rowGet row ("recipe_title")))
    (rowGet row ("name"))) (rowGet row ("headline"))
  let steps_raw := pyOrOpt (pyOrOpt (pyOrOpt (rowGet row ("steps")) (rowGet row ("directions")))
    (rowGet row ("instructions"))) (rowGet row ("description"))
  let steps0 := parse_csv_cell steps_raw
  let steps1 :=
    if steps0 = [] ∧ truthyS (rowGet row ("description")) then
      [(rowGet row ("description")).getD ""]
    else steps0
  { id? := pyOrOpt (pyOrOpt (rowGet row ("id")) (rowGet row ("url"))) title,
    url? := none,
    title? := title,
    source_url? := pyOrOpt (pyOrOpt (rowGet row ("source_url")) (rowGet row ("url")))
      (rowGet row ("source")),
    ingredients := (parse_csv_cell (pyOrOpt (pyOrOpt (rowGet row ("ingredients"))
      (rowGet row ("ingredient"))) (rowGet row ("ingredients_list")))).map RawIng.text,
    steps := steps1,
    nutrition? := pyOrOpt (rowGet row ("nutrition")) (rowGet row ("nutrition_info")) }

/-! ## The ingestion pipeline `run` (lines 194-251) -/

/-- One record in scan order: a JSON record or a CSV row. -/
inductive SrcItem where
  | jsonRec (r : RawRecord) : SrcItem
  | csvRow (row : CsvRow) : SrcItem
deriving Repr, DecidableEq

/-- The raw record handed to `normalize_recipe` for a scan item. -/
def itemRaw : SrcItem → RawRecord
  | SrcItem.jsonRec r => r
  | SrcItem.csvRow row => csvItem row

def itemNorm (it : SrcItem) : CanonicalRecipe := normalize_recipe (itemRaw it)

/-- A raw input file: a `.json` file (one record or a list — uniformly a
list here, as `run` wraps single records) or a `.csv` file. -/
inductive IngestFile where
  | jsonFile (records : List RawRecord) : IngestFile
  | csvFile (rows : List CsvRow) : IngestFile

def fileItems : IngestFile → List SrcItem
  | IngestFile.jsonFile rs => rs.map SrcItem.jsonRec
  | IngestFile.csvFile rows => rows.map SrcItem.csvRow

/-- The `sample_limit and len(collected) >= sample_limit` break condition
(`None` and `0` are both falsy). -/
def limitReached (limit : Option Nat) (k : Nat) : Bool :=
  match limit with
  | none => false
  | some n => decide (n ≠ 0) && decide (n ≤ k)

/-- The collection loop of `run`: normalize each scan item, drop records
whose id was already seen, stop when the sample limit is reached (the
inner `break` falls through to the outer one, so the whole scan stops). -/
def runCollect (limit : Option Nat) :
    List String → List CanonicalRecipe → List SrcItem → List CanonicalRecipe
  | _, acc, [] => acc
  | seen, acc, it :: rest =>
    let nr := itemNorm it
    if nr.id ∈ seen then runCollect limit seen acc rest
    else
      let acc2 := acc ++ [nr]
      if limitReached limit acc2.length then acc2
      else runCollect limit (nr.id :: seen) acc2 rest

/-- Insert into a sorted list after all elements that compare `le` (the
stable insertion of an insertion sort). -/
def insertSorted {α : Type} (le : α → α → Bool) (x : α) : List α → List α
  | [] => [x]
  | y :: ys => if le y x then y :: insertSorted le x ys else x :: y :: ys

/-- A stable sort (Python's `sorted`). -/
def pySorted {α : Type} (le : α → α → Bool) : List α → List α
  | [] => []
  | x :: xs => insertSorted le x (pySorted le xs)

/-- Code-point lexicographic `≤` (Python string comparison). -/
def lexLe : List Char → List Char → Bool
  | [], _ => true
  | _ :: _, [] => false
  | x :: xs, y :: ys => if x = y then lexLe xs ys else decide (x < y)

/-- Files are scanned in sorted name order (`sorted(raw_dir.glob('*'))`). -/
def sortFiles (files : List (String × IngestFile)) : List (String × IngestFile) :=
  pySorted (fun a b => lexLe a.1.toList b.1.toList) files

/-- The flattened sequence of raw records processed by `run`, in scan order. -/
def scanItems (files : List (String × IngestFile)) : List SrcItem :=
  (sortFiles files).flatMap (fun f => fileItems f.2)

/-- `run` from `scripts/ingest.py` (lines 194-251), as the canonical
collection it writes. -/
def ingest_run (files : List (String × IngestFile)) (limit : Option Nat) :
    List CanonicalRecipe :=
  runCollect limit [] [] (scanItems files)

/-! ## The local compression backend (`scripts/scaledown_client.py`)

`zlib` is an external library used as a black box; the simulated backend is
therefore parametrized by the `zlib.compress`/`zlib.decompress` pair, whose
documented contract (lossless byte compression) becomes an explicit
hypothesis of the round-trip theorem.  UTF-8 and base64 are implemented
concretely.  Bytes are `Nat`s constrained to `< 256`. -/

def utf8EncodeChar (c : Char) : List Nat :=
  let n := c.toNat
  if n < 0x80 then [n]
  else if n < 0x800 then [0xC0 + n / 64, 0x80 + n % 64]
  else if n < 0x10000 then [0xE0 + n / 4096, 0x80 + n / 64 % 64, 0x80 + n % 64]
  else [0xF0 + n / 0x40000, 0x80 + n / 4096 % 64, 0x80 + n / 64 % 64, 0x80 + n % 64]

/-- Python `str.encode('utf-8')`. -/
def utf8Encode (cs : List Char) : List Nat := cs.flatMap utf8EncodeChar

def isContB (b : Nat) : Bool := decide (0x80 ≤ b) && decide (b < 0xC0)

/-- Python `bytes.decode('utf-8')` (strict): rejects truncated sequences,
continuation errors, overlong encodings, surrogates and out-of-range
code points. -/
def utf8Decode : List Nat → Option (List Char)
  | [] => some []
  | b :: bs =>
    if b < 0x80 then (utf8Decode bs).map (fun cs => Char.ofNat b :: cs)
    else if b < 0xC2 then none
    else if b < 0xE0 then
      match bs with
      | b1 :: bs2 =>
        if isContB b1 then
          (utf8Decode bs2).map (fun cs => Char.ofNat ((b - 0xC0) * 64 + (b1 - 0x80)) :: cs)
        else none
      | [] => none
    else if b < 0xF0 then
      match bs with
      | b1 :: b2 :: bs2 =>
        if isContB b1 && isContB b2 then
          let n := (b - 0xE0) * 4096 + (b1 - 0x80) * 64 + (b2 - 0x80)
          if n < 0x800 ∨ (0xD800 ≤ n ∧ n < 0xE000) then none
          else (utf8Decode bs2).map (fun cs => Char.ofNat n :: cs)
        else none
      | _ => none
    else if b < 0xF5 then
      match bs with
      | b1 :: b2 :: b3 :: bs2 =>
        if isContB b1 && isContB b2 && isContB b3 then
          let n := (b - 0xF0) * 0x40000 + (b1 - 0x80) * 4096 + (b2 - 0x80) * 64 + (b3 - 0x80)
          if n < 0x10000 ∨ 0x110000 ≤ n then none
          else (utf8Decode bs2).map (fun cs => Char.ofNat n :: cs)
        else none
      | _ => none
    else none

def b64Alphabet : List Char :=
  ("ABCDEFGHIJKLMNOPQRSTUVWXYZabcdefghijklmnopqrstuvwxyz0123456789+/").toList

def b64tbl (n : Nat) : Char := b64Alphabet.getD n 'A'

def b64idx (c : Char) : Option Nat := b64Alphabet.findIdx? (fun x => x = c)

/-- `base64.b64encode`. -/
def b64encode : List Nat → List Char
  | [] => []
  | [a] => [b64tbl (a / 4), b64tbl (a % 4 * 16), '=', '=']
  | [a, b] => [b64tbl (a / 4), b64tbl (a % 4 * 16 + b / 16), b64tbl (b % 16 * 4), '=']
  | a :: b :: c :: rest =>
    b64tbl (a / 4) :: b64tbl (a % 4 * 16 + b / 16) ::
      b64tbl (b % 16 * 4 + c / 64) :: b64tbl (c % 64) :: b64encode rest

/-- `base64.b64decode` on well-formed base64 (the image of `b64encode`;
CPython's discarding of junk characters is outside the model). -/
def b64decode : List Char → Option (List Nat)
  | [] => some []
  | c1 :: c2 :: c3 :: c4 :: rest =>
    (b64idx c1).bind (fun v1 =>
    (b64idx c2).bind (fun v2 =>
    if c3 = '=' ∧ c4 = '=' ∧ rest = [] then some [v1 * 4 + v2 / 16]
    else if c4 = '=' ∧ rest = [] then
      (b64idx c3).map (fun v3 => [v1 * 4 + v2 / 16, v2 % 16 * 16 + v3 / 4])
    else
      (b64idx c3).bind (fun v3 =>
      (b64idx c4).bind (fun v4 =>
      (b64decode rest).map (fun bs =>
        (v1 * 4 + v2 / 16) :: (v2 % 16 * 16 + v3 / 4) :: (v3 % 4 * 64 + v4) :: bs)))))
  | _ => none

/-- The result dictionary of `_simulate_compress`. -/
structure SimResult where
  method : String
  compressed_blob_b64 : String
  orig_len : Nat
  compressed_len : Nat
deriving Repr, DecidableEq

/-- `_simulate_compress` from `scripts/scaledown_client.py` (lines 24-33),
parametrized by `zlib.compress`. -/
def _simulate_compress (zlibCompress : List Nat → List Nat) (text : String) : SimResult :=
  let b := utf8Encode text.toList
  let comp := zlibCompress b
  ⟨"simulated", String.mk (b64encode comp), b.length, comp.length⟩

/-- `_simulate_decompress` (lines 36-39), parametrized by
`zlib.decompress`; raising becomes `none`. -/
def _simulate_decompress (zlibDecompress : List Nat → List Nat) (b64 : String) :
    Option String :=
  (b64decode b64.toList).bind (fun comp =>
    (utf8Decode (zlibDecompress comp)).map String.mk)

/-- `decompress_text` (lines 65-73): only method `'simulated'` is
implemented; anything else raises (`none`). -/
def decompress_text (zlibDecompress : List Nat → List Nat) (blob : String)
    (method : String) : Option String :=
  if method = "simulated" then _simulate_decompress zlibDecompress blob else none

/-! ## The compression index builder (`scripts/compress_recipes.py`) -/

/-- The response dictionary of `compress_text` (its fields may be absent
on the remote-API path); the backend is an arbitrary function of the
flattened text. -/
structure BackendResp where
  method : Option String
  compressed_blob_b64 : Option String
  meta : Option String
  data : Option String
  orig_len : Option Int
  compressed_len : Option Int

/-- An `ingredients` entry of a stored canonical recipe: a structured
mapping (with optional `raw`/`name`) or a plain value rendered by `str`. -/
inductive IngCell where
  | cdict (raw : Option String) (name : Option String) : IngCell
  | cstr (s : String) : IngCell
deriving Repr, DecidableEq

/-- `i.get('raw') or i.get('name','')` / `str(i)`. -/
def ingCellText : IngCell → String
  | IngCell.cdict raw name => (pyOrOpt raw (some (name.getD ""))).getD ""
  | IngCell.cstr s => s

/-- Truthiness of a JSON value (for `if nutrition:`). -/
def jTruthy : JVal → Bool
  | JVal.jnull => false
  | JVal.jbool b => b
  | JVal.jnum _ q => decide (q ≠ 0)
  | JVal.jstr s => decide (s ≠ "")
  | JVal.jarr xs => !xs.isEmpty
  | JVal.jobj fs => !fs.isEmpty

/-- A recipe as read back from the canonical collection by
`compress_recipes.run` (the fields `build_text_for_recipe` and the loop
read). -/
structure CRecipe where
  id? : Option String
  title? : Option String
  ingredients : List IngCell
  steps : List String
  nutrition? : Option JVal

/-- `build_text_for_recipe` from `scripts/compress_recipes.py`
(lines 14-34). -/
def build_text_for_recipe (r : CRecipe) : String :=
  let parts : List String :=
    [("TITLE: ") ++ (r.title?.getD "")] ++
    (if r.ingredients ≠ [] then ("\nINGREDIENTS:\n") :: r.ingredients.map ingCellText
     else []) ++
    (if r.steps ≠ [] then ("\nSTEPS:\n") :: r.steps else []) ++
    (match r.nutrition? with
     | some nut => if jTruthy nut then [("\nNUTRITION:\n"), jsonDumps nut] else []
     | none => [])
  String.intercalate ("\n") parts

/-- Decimal digits of `n`, least significant first. -/
def natDigitsRev (n : Nat) : List Nat :=
  if n < 10 then [n] else n % 10 :: natDigitsRev (n / 10)
decreasing_by simp_wf; omega

/-- Decimal rendering of a natural number (`str(i)` / f-string). -/
def natReprS (n : Nat) : String :=
  String.mk ((natDigitsRev n).reverse.map (fun d => Char.ofNat (48 + d)))

/-- The character class kept by `re.sub(r'[^A-Za-z0-9._-]', '_', ...)`. -/
def safeCh (c : Char) : Bool :=
  isAlphaCh c || isDigitCh c || c = '.' || c = '_' || c = '-'

/-- `re.sub(r'[^A-Za-z0-9._-]', '_', rid).strip('_')`. -/
def sanitizeId (rid : String) : String :=
  String.mk (pyStripBy (fun c => c = '_')
    (rid.toList.map (fun c => if safeCh c then c else '_')))

/-- `rid = r.get('id') or f'recipe_{i}'`. -/
def ridOf (i : Nat) (r : CRecipe) : String :=
  (pyOrOpt r.id? (some (("recipe_") ++ natReprS i))).getD ""

/-- The blob filename `f"{i}_{safe}.json"` (with the empty-`safe`
fallback). -/
def blobName (i : Nat) (rid : String) : String :=
  let safe := sanitizeId rid
  let safe2 := if safe = "" then ("recipe_") ++ natReprS i else safe
  natReprS i ++ ("_") ++ safe2 ++ (".json")

/-- An entry of `data/compressed_index.json`. -/
structure IndexEntry where
  id : String
  blob : String
  method : Option String
  orig_len : Option Int
  compressed_len : Option Int
deriving Repr, DecidableEq

/-- The index dictionary `{'count': ..., 'entries': [...]}`. -/
structure CompressIndex where
  count : Nat
  entries : List IndexEntry
deriving Repr, DecidableEq

/-- The index entry appended for recipe `r` at position `i`. -/
def mkIndexEntry (backend : String → BackendResp) (i : Nat) (r : CRecipe) : IndexEntry :=
  let rid := ridOf i r
  let resp := backend (build_text_for_recipe r)
  ⟨rid, blobName i rid, resp.method, resp.orig_len, resp.compressed_len⟩

/-- The recipes actually processed: `enumerate(recipes)` truncated by the
`if sample and i >= sample: break` guard (`sample = 0` disables it). -/
def processedRecipes (recipes : List CRecipe) (sample : Nat) : List (Nat × CRecipe) :=
  if sample = 0 then recipes.enum else recipes.enum.take sample

/-- `run` from `scripts/compress_recipes.py` (lines 37-68) as the index it
writes: one blob file and one entry per processed recipe, `count`
incremented alongside. -/
def compress_run (backend : String → BackendResp) (recipes : List CRecipe)
    (sample : Nat) : CompressIndex :=
  (processedRecipes recipes sample).foldl
    (fun ix p => ⟨ix.count + 1, ix.entries ++ [mkIndexEntry backend p.1 p.2]⟩)
    ⟨0, []⟩

/-! ## Byte-savings statistics (`scripts/compress_stats.py` line 7 and
`backend/app/main.py` lines 263-267 — the identical expression) -/

/-- An index entry as read back from disk (only the length fields
matter). -/
structure StatEntry where
  orig_len : Option Int
  compressed_len : Option Int
deriving Repr, DecidableEq

/-- Truthiness of an optional integer (`e.get('orig_len')`). -/
def truthyIntOpt : Option Int → Bool
  | none => false
  | some n => decide (n ≠ 0)

/-- `sum((e.get('orig_len') or 0) - (e.get('compressed_len') or 0)
for e in entries if e.get('orig_len'))`. -/
def bytes_saved (entries : List StatEntry) : Int :=
  (entries.filter (fun e => truthyIntOpt e.orig_len)).foldl
    (fun acc e => acc + ((e.orig_len.getD 0) - (e.compressed_len.getD 0))) 0

/-- The per-entry contribution of the computed total: `orig - compressed`
for entries with a present *and nonzero* `orig_len`, else `0`. -/
def statContrib (e : StatEntry) : Int :=
  match e.orig_len with
  | some n => if n ≠ 0 then n - e.compressed_len.getD 0 else 0
  | none => 0

/-- The total described by the claim's words (for comparison): the sum of
`orig_len - compressed_len` over exactly those entries whose `orig_len` is
*present*. -/
def specBytesSavedPresent (entries : List StatEntry) : Int :=
  ((entries.filter (fun e => e.orig_len.isSome)).map
    (fun e => e.orig_len.getD 0 - e.compressed_len.getD 0)).sum

/-- Value of a least-significant-first digit list. -/
def digitsRevVal : List Nat → Nat
  | [] => 0
  | d :: ds => d + 10 * digitsRevVal ds

/-- Inverse of the digit-to-character map on decimal digits. -/
def digitOfChar (c : Char) : Nat := c.toNat - 48

/-! ## Small concrete inputs used by witnesses -/

def sampleRecX : RawRecord := ⟨some ("x"), none, none, none, [], [], none⟩

def sampleRecXdup : RawRecord := ⟨some ("x"), some ("u"), none, none, [], [], none⟩

def sampleRecY : RawRecord := ⟨some ("y"), none, none, none, [], [], none⟩

def sampleFiles : List (String × IngestFile) :=
  [(("a.json"), IngestFile.jsonFile [sampleRecX, sampleRecXdup]),
   (("b.json"), IngestFile.jsonFile [sampleRecY])]

/-- The quantity shapes of claim C3 (integer, decimal, simple fraction,
mixed number), over explicit digit lists. -/
inductive QtyForm where
  | intQ (ds : List Char) : QtyForm
  | decQ (a b : List Char) : QtyForm
  | fracQ (a b : List Char) : QtyForm
  | mixedQ (a b c : List Char) : QtyForm
deriving Repr, DecidableEq

/-- The textual form of a quantity shape. -/
def QtyForm.chars : QtyForm → List Char
  | intQ ds => ds
  | decQ a b => a ++ '.' :: b
  | fracQ a b => a ++ '/' :: b
  | mixedQ a b c => a ++ ' ' :: b ++ '/' :: c

/-- Well-formedness: nonempty digit groups, nonzero denominators. -/
def QtyForm.wfb : QtyForm → Bool
  | intQ ds => !ds.isEmpty && ds.all isDigitCh
  | decQ a b => !a.isEmpty && !b.isEmpty && a.all isDigitCh && b.all isDigitCh
  | fracQ a b => !a.isEmpty && !b.isEmpty && a.all isDigitCh && b.all isDigitCh &&
      decide (natOfDigits b ≠ 0)
  | mixedQ a b c => !a.isEmpty && !b.isEmpty && !c.isEmpty && a.all isDigitCh &&
      b.all isDigitCh && c.all isDigitCh && decide (natOfDigits c ≠ 0)

/-- The numeric value of a quantity shape. -/
def QtyForm.value : QtyForm → ℚ
  | intQ ds => (natOfDigits ds : ℚ)
  | decQ a b => (natOfDigits a : ℚ) + (natOfDigits b : ℚ) / 10 ^ b.length
  | fracQ a b => (natOfDigits a : ℚ) / (natOfDigits b : ℚ)
  | mixedQ a b c => (natOfDigits a : ℚ) + (natOfDigits b : ℚ) / (natOfDigits c : ℚ)

/-! # Theorems -/

/-! ## General list helpers -/

theorem takeWhile_append_eq {α : Type} (p : α → Bool) (a b : List α)
    (ha : ∀ c ∈ a, p c = true) (hb : ∀ c, b.head? = some c → p c = false) :
    (a ++ b).takeWhile p = a ∧ (a ++ b).dropWhile p = b := by
  induction a with
  | nil =>
    cases b with
    | nil => simp
    | cons x xs => simp [List.takeWhile, List.dropWhile, hb x rfl]
  | cons x xs ih =>
    have hx : p x = true := ha x (by simp)
    have ih2 := ih (fun c hc => ha c (by simp [hc]))
    simp [List.takeWhile_cons, List.dropWhile_cons, hx, ih2.1, ih2.2]

theorem runLen_append (p : Char → Bool) (a b : List Char)
    (ha : ∀ c ∈ a, p c = true) (hb : ∀ c, b.head? = some c → p c = false) :
    runLen p (a ++ b) = a.length := by
  unfold runLen
  rw [(takeWhile_append_eq p a b ha hb).1]

theorem runLen_zero (p : Char → Bool) (l : List Char)
    (h : ∀ c, l.head? = some c → p c = false) : runLen p l = 0 := by
  have := takeWhile_append_eq p [] l (by simp) h
  simpa [runLen] using this.1

/-! ## C8: byte-savings totals -/

theorem bytes_saved_fold (l : List StatEntry) (acc : Int) :
    (l.filter (fun e => truthyIntOpt e.orig_len)).foldl
      (fun a e => a + ((e.orig_len.getD 0) - (e.compressed_len.getD 0))) acc
      = acc + (l.map statContrib).sum := by
  induction l generalizing acc with
  | nil => simp
  | cons e rest ih =>
    rcases e with ⟨o, cl⟩
    rcases o with _ | n
    · have ht : truthyIntOpt (StatEntry.mk none cl).orig_len = false := rfl
      have hc : statContrib (StatEntry.mk none cl) = 0 := rfl
      rw [List.filter_cons, ht]
      simp only [Bool.false_eq_true, if_false, List.map_cons, List.sum_cons, hc, ih]
      omega
    · by_cases hn : n = 0
      · subst hn
        have ht : truthyIntOpt (StatEntry.mk (some 0) cl).orig_len = false := by
          simp [truthyIntOpt]
        have hc : statContrib (StatEntry.mk (some 0) cl) = 0 := by
          simp [statContrib]
        rw [List.filter_cons, ht]
        simp only [Bool.false_eq_true, if_false, List.map_cons, List.sum_cons, hc, ih]
        omega
      · have ht : truthyIntOpt (StatEntry.mk (some n) cl).orig_len = true := by
          simp [truthyIntOpt, hn]
        have hc : statContrib (StatEntry.mk (some n) cl)
            = n - cl.getD 0 := by simp [statContrib, hn]
        rw [List.filter_cons, ht]
        simp only [if_true, List.foldl_cons, List.map_cons, List.sum_cons, hc,
          Option.getD_some, ih]
        omega

/-- C8 (amended): the total byte savings computed by
`compress_stats.py`/`compress_status` is the sum of `orig_len -
compressed_len` over exactly those entries whose `orig_len` is present
*and nonzero* (Python truthiness also drops `orig_len = 0`), negative
per-entry savings included as-is; on the synthetic index
`[{orig_len:100,compressed_len:40},{orig_len:50,compressed_len:60},{orig_len:null,compressed_len:10}]`
the total is `50`. -/
theorem claim_C8 :
    (∀ entries, bytes_saved entries = (entries.map statContrib).sum) ∧
    bytes_saved [⟨some 100, some 40⟩, ⟨some 50, some 60⟩, ⟨none, some 10⟩] = 50 := by
  refine ⟨fun entries => ?_, by decide⟩
  have h := bytes_saved_fold entries 0
  simpa [bytes_saved] using h

/-- C8 counterexample: on an index with a present-but-zero `orig_len`, the
code's total (`0`) differs from the claim's "sum over entries whose
orig_len is present" (`0 - 5 = -5`). -/
theorem claim_C8_cx :
    bytes_saved [⟨some 0, some 5⟩] = 0 ∧
    specBytesSavedPresent [⟨some 0, some 5⟩] = -5 ∧
    bytes_saved [⟨some 0, some 5⟩] ≠ specBytesSavedPresent [⟨some 0, some 5⟩] := by
  decide

/-! ## C9/C10: the compression index builder -/

theorem compress_fold {α : Type} (f : α → IndexEntry) (l : List α) :
    ∀ (c0 : Nat) (e0 : List IndexEntry),
      l.foldl (fun ix p => ⟨ix.count + 1, ix.entries ++ [f p]⟩)
        (⟨c0, e0⟩ : CompressIndex) = ⟨c0 + l.length, e0 ++ l.map f⟩ := by
  induction l with
  | nil => intro c0 e0; simp
  | cons a rest ih =>
    intro c0 e0
    simp only [List.foldl_cons, List.map_cons, List.length_cons, ih]
    congr 1
    · omega
    · simp

/-- C10: in the index written by `compress_recipes.run`, `count` equals the
number of entries, and the entries are exactly one per processed recipe in
input order. -/
theorem claim_C10 : ∀ (backend : String → BackendResp) (recipes : List CRecipe)
    (sample : Nat),
    (compress_run backend recipes sample).count
      = (compress_run backend recipes sample).entries.length ∧
    (compress_run backend recipes sample).entries
      = (processedRecipes recipes sample).map
          (fun p => mkIndexEntry backend p.1 p.2) := by
  intro backend recipes sample
  have h := compress_fold (fun p : Nat × CRecipe => mkIndexEntry backend p.1 p.2)
    (processedRecipes recipes sample) 0 []
  unfold compress_run
  rw [h]
  simp

theorem natDigitsRev_lt (n : Nat) : ∀ d ∈ natDigitsRev n, d < 10 := by
  induction n using Nat.strong_induction_on with
  | _ n ih =>
    intro d hd
    rw [natDigitsRev] at hd
    by_cases h : n < 10
    · simp [h] at hd; omega
    · simp [h] at hd
      rcases hd with h1 | h2
      · omega
      · exact ih (n / 10) (Nat.div_lt_self (by omega) (by omega)) d h2

theorem digitsRevVal_natDigitsRev (n : Nat) : digitsRevVal (natDigitsRev n) = n := by
  induction n using Nat.strong_induction_on with
  | _ n ih =>
    rw [natDigitsRev]
    by_cases h : n < 10
    · simp [h, digitsRevVal]
    · simp only [h, if_false, digitsRevVal]
      rw [ih (n / 10) (Nat.div_lt_self (by omega) (by omega))]
      omega

theorem digitOfChar_enc : ∀ d, d < 10 → digitOfChar (Char.ofNat (48 + d)) = d := by
  decide

theorem enc_ne_underscore : ∀ d, d < 10 → Char.ofNat (48 + d) ≠ '_' := by
  decide

theorem map_digitOfChar_enc (ds : List Nat) (h : ∀ d ∈ ds, d < 10) :
    (ds.map (fun d => Char.ofNat (48 + d))).map digitOfChar = ds := by
  induction ds with
  | nil => simp
  | cons d rest ih =>
    simp only [List.map_cons, List.cons.injEq]
    exact ⟨digitOfChar_enc d (h d (by simp)), ih (fun x hx => h x (by simp [hx]))⟩

theorem natReprS_inj (m n : Nat) (h : natReprS m = natReprS n) : m = n := by
  unfold natReprS at h
  injection h with h
  have h3 := congrArg (List.map digitOfChar) h
  rw [map_digitOfChar_enc _ (fun d hd => natDigitsRev_lt m d (List.mem_reverse.mp hd)),
      map_digitOfChar_enc _ (fun d hd => natDigitsRev_lt n d (List.mem_reverse.mp hd))] at h3
  have h4 := congrArg List.reverse h3
  simp only [List.reverse_reverse] at h4
  have := congrArg digitsRevVal h4
  rwa [digitsRevVal_natDigitsRev, digitsRevVal_natDigitsRev] at this

theorem natReprS_no_underscore (n : Nat) : ∀ c ∈ (natReprS n).toList, c ≠ '_' := by
  intro c hc
  unfold natReprS at hc
  simp only [String.toList] at hc
  rw [List.mem_map] at hc
  obtain ⟨d, hd, hcd⟩ := hc
  rw [List.mem_reverse] at hd
  subst hcd
  exact enc_ne_underscore d (natDigitsRev_lt n d hd)

theorem blobName_toList (i : Nat) (rid : String) :
    (blobName i rid).toList = (natReprS i).toList ++
      ((("_" : String)).toList ++
        ((if sanitizeId rid = "" then ("recipe_") ++ natReprS i
          else sanitizeId rid).toList ++ ((".json" : String)).toList)) := by
  have hd : ∀ a b : String, (a ++ b).toList = a.toList ++ b.toList := fun a b => rfl
  simp only [blobName, hd, List.append_assoc]

theorem blobName_inj (i j : Nat) (r s : String) (h : blobName i r = blobName j s) :
    i = j := by
  have h2 : (blobName i r).toList = (blobName j s).toList := by rw [h]
  rw [blobName_toList, blobName_toList] at h2
  have key : ∀ (k : Nat) (b : List Char), b.head? = some '_' →
      ((natReprS k).toList ++ b).takeWhile (fun c => decide (c ≠ '_'))
        = (natReprS k).toList := by
    intro k b hb
    refine (takeWhile_append_eq _ _ _ ?_ ?_).1
    · intro c hc
      simpa using natReprS_no_underscore k c hc
    · intro c hc
      rw [hb] at hc
      injection hc with hc
      subst hc
      simp
  have h3 := congrArg (List.takeWhile (fun c : Char => decide (c ≠ '_'))) h2
  rw [key i _ (by rfl), key j _ (by rfl)] at h3
  exact natReprS_inj i j (String.ext h3)

theorem nodup_blobs_aux (l : List (Nat × CRecipe))
    (h : (l.map Prod.fst).Nodup) :
    (l.map (fun p => blobName p.1 (ridOf p.1 p.2))).Nodup := by
  induction l with
  | nil => simp
  | cons p rest ih =>
    simp only [List.map_cons, List.nodup_cons] at h ⊢
    refine ⟨?_, ih h.2⟩
    intro hmem
    rw [List.mem_map] at hmem
    obtain ⟨q, hq, heq⟩ := hmem
    have : q.1 = p.1 := blobName_inj q.1 p.1 _ _ heq
    exact h.1 (by rw [List.mem_map]; exact ⟨q, hq, this⟩)

theorem nodup_fst_processed (recipes : List CRecipe) (sample : Nat) :
    ((processedRecipes recipes sample).map Prod.fst).Nodup := by
  unfold processedRecipes
  by_cases h : sample = 0
  · simp only [h, if_true]
    rw [List.enum_map_fst]
    exact List.nodup_range _
  · simp only [h, if_false]
    rw [List.map_take, List.enum_map_fst]
    exact ((List.take_sublist _ _).nodup (List.nodup_range _))

/-- C9: the blob filenames written by `compress_recipes.run` are pairwise
distinct for every batch and backend, because each is prefixed with the
record's positional index. -/
theorem claim_C9 : ∀ (backend : String → BackendResp) (recipes : List CRecipe)
    (sample : Nat),
    (((compress_run backend recipes sample).entries).map (fun e => e.blob)).Nodup := by
  intro backend recipes sample
  have h := compress_fold (fun p : Nat × CRecipe => mkIndexEntry backend p.1 p.2)
    (processedRecipes recipes sample) 0 []
  unfold compress_run
  rw [h]
  simp only [List.nil_append, List.map_map]
  have : ((fun e : IndexEntry => e.blob) ∘ fun p : Nat × CRecipe =>
      mkIndexEntry backend p.1 p.2)
      = fun p : Nat × CRecipe => blobName p.1 (ridOf p.1 p.2) := by
    funext p
    simp [mkIndexEntry]
  rw [this]
  exact nodup_blobs_aux _ (nodup_fst_processed recipes sample)

/-! ## C7: the description fallback for steps -/

/-- C7 counterexample: for a CSV row whose only relevant field is
`description = "Mix; bake"`, the normalized steps are the *split* list
`["Mix", "bake"]`, not the claimed one-element `["Mix; bake"]` — the
description is first run through `parse_csv_cell` (line 221's alias chain)
and the single-step wrap at line 231 only fires when that parse is empty. -/
theorem claim_C7_cx :
    (normalize_recipe (csvItem [(("description"), ("Mix; bake"))])).steps
      = [("Mix"), ("bake")] ∧
    ([("Mix"), ("bake")] : List String) ≠ [("Mix; bake")] := by
  constructor
  · rfl
  · decide

/-- C7 (amended): for a CSV row with no steps/directions/instructions field
and a non-empty description, the normalized steps are `parse_csv_cell`
applied to the description; only when that parse yields no parts is the raw
description wrapped as a single step. -/
theorem claim_C7 : ∀ (row : CsvRow) (d : String),
    rowGet row ("steps") = none → rowGet row ("directions") = none →
    rowGet row ("instructions") = none → rowGet row ("description") = some d →
    d ≠ "" →
    (normalize_recipe (csvItem row)).steps
      = (if parse_csv_cell (some d) = [] then [d] else parse_csv_cell (some d)) := by
  intro row d h1 h2 h3 h4 h5
  simp only [normalize_recipe, csvItem, h1, h2, h3, h4, pyOrOpt, truthyS]
  by_cases hp : parse_csv_cell (some d) = []
  · simp [hp, h5]
  · simp [hp, h5]

theorem claim_C7_witness :
    (normalize_recipe (csvItem [(("description"), ("Mix; bake"))])).steps
      = (if parse_csv_cell (some ("Mix; bake")) = [] then [("Mix; bake")]
         else parse_csv_cell (some ("Mix; bake"))) :=
  claim_C7 _ _ (by rfl) (by rfl) (by rfl) (by rfl) (by decide)

/-! ## C1: deduplication in the ingestion pipeline -/

theorem runCollect_nodup (limit : Option Nat) :
    ∀ (items : List SrcItem) (seen : List String) (acc : List CanonicalRecipe),
    (acc.map (fun r => r.id)).Nodup → (∀ a ∈ acc, a.id ∈ seen) →
    ((runCollect limit seen acc items).map (fun r => r.id)).Nodup := by
  intro items
  induction items with
  | nil =>
    intro seen acc h1 _
    simpa [runCollect] using h1
  | cons it rest ih =>
    intro seen acc h1 h2
    simp only [runCollect]
    by_cases hid : (itemNorm it).id ∈ seen
    · simp only [hid, if_true]
      exact ih seen acc h1 h2
    · have hnotin : (itemNorm it).id ∉ acc.map (fun r => r.id) := by
        intro hmem
        rw [List.mem_map] at hmem
        obtain ⟨a, ha, hay⟩ := hmem
        exact hid (hay ▸ h2 a ha)
      have hnodup2 : ((acc ++ [itemNorm it]).map (fun r => r.id)).Nodup := by
        rw [List.map_append]
        simp [List.nodup_append, h1, hnotin]
      simp only [hid, if_false]
      by_cases hl : limitReached limit (acc ++ [itemNorm it]).length
      · simp only [hl, if_true]
        exact hnodup2
      · simp only [hl, if_false]
        apply ih _ _ hnodup2
        intro a ha
        rw [List.mem_append] at ha
        rcases ha with ha | ha
        · exact List.mem_cons_of_mem _ (h2 a ha)
        · simp at ha
          subst ha
          exact List.mem_cons_self _ _

theorem runCollect_first (limit : Option Nat) :
    ∀ (items : List SrcItem) (seen : List String) (acc : List CanonicalRecipe),
    ∀ b ∈ runCollect limit seen acc items,
      b ∈ acc ∨ (b.id ∉ seen ∧
        (items.find? (fun it => decide ((itemNorm it).id = b.id))).map itemNorm
          = some b) := by
  intro items
  induction items with
  | nil =>
    intro seen acc b hb
    simp only [runCollect] at hb
    exact Or.inl hb
  | cons it rest ih =>
    intro seen acc b hb
    simp only [runCollect] at hb
    by_cases hid : (itemNorm it).id ∈ seen
    · simp only [hid, if_true] at hb
      rcases ih seen acc b hb with h | h
      · exact Or.inl h
      · refine Or.inr ⟨h.1, ?_⟩
        have hne : (itemNorm it).id ≠ b.id := by
          intro he
          exact h.1 (he ▸ hid)
        rw [List.find?_cons_of_neg _ (by simp [hne])]
        exact h.2
    · simp only [hid, if_false] at hb
      by_cases hl : limitReached limit (acc ++ [itemNorm it]).length
      · simp only [hl, if_true] at hb
        rw [List.mem_append] at hb
        rcases hb with hb | hb
        · exact Or.inl hb
        · simp at hb
          subst hb
          refine Or.inr ⟨hid, ?_⟩
          rw [List.find?_cons_of_pos _ (by simp)]
          simp
      · simp only [hl, if_false] at hb
        rcases ih _ _ b hb with h | h
        · rw [List.mem_append] at h
          rcases h with h | h
          · exact Or.inl h
          · simp at h
            subst h
            refine Or.inr ⟨hid, ?_⟩
            rw [List.find?_cons_of_pos _ (by simp)]
            simp
        · have hne : (itemNorm it).id ≠ b.id := by
            intro he
            exact h.1 (he ▸ List.mem_cons_self _ _)
          refine Or.inr ⟨fun hc => h.1 (List.mem_cons_of_mem _ hc), ?_⟩
          rw [List.find?_cons_of_neg _ (by simp [hne])]
          exact h.2

/-- C1: the ids in the collection written by the ingestion pipeline's `run`
are pairwise distinct, and every written record is the normalization of the
*first* raw record in scan order (files sorted by name, flattened) whose
normalized id equals its id — so later records with a duplicate id are
dropped. -/
theorem claim_C1 : ∀ (files : List (String × IngestFile)) (limit : Option Nat),
    ((ingest_run files limit).map (fun r => r.id)).Nodup ∧
    ∀ b ∈ ingest_run files limit,
      ((scanItems files).find? (fun it => decide ((itemNorm it).id = b.id))).map
        itemNorm = some b := by
  intro files limit
  constructor
  · exact runCollect_nodup limit (scanItems files) [] [] (by simp) (by simp)
  · intro b hb
    rcases runCollect_first limit (scanItems files) [] [] b hb with h | h
    · simp at h
    · exact h.2

theorem claim_C1_witness :
    ((ingest_run sampleFiles none).map (fun r => r.id)).Nodup ∧
    ((scanItems sampleFiles).find?
      (fun it => decide ((itemNorm it).id = (normalize_recipe sampleRecX).id))).map
        itemNorm = some (normalize_recipe sampleRecX) := by
  refine ⟨(claim_C1 sampleFiles none).1, ?_⟩
  have h := (claim_C1 sampleFiles none).2 (normalize_recipe sampleRecX) (by decide)
  exact h

/-! ## C5: the local compression round trip -/

theorem char_toNat_facts (c : Char) :
    c.toNat < 1114112 ∧ ¬(55296 ≤ c.toNat ∧ c.toNat < 57344) := by
  have h := c.valid
  have he : c.toNat = c.val.toNat := rfl
  rcases h with h | h <;> omega

theorem utf8EncodeChar_lt (c : Char) : ∀ x ∈ utf8EncodeChar c, x < 256 := by
  intro x hx
  have hv := (char_toNat_facts c).1
  unfold utf8EncodeChar at hx
  by_cases h1 : c.toNat < 0x80
  · rw [if_pos h1] at hx
    simp only [List.mem_singleton] at hx
    omega
  · by_cases h2 : c.toNat < 0x800
    · rw [if_neg h1, if_pos h2] at hx
      simp only [List.mem_cons, List.mem_singleton, List.not_mem_nil, or_false] at hx
      rcases hx with hx | hx <;> omega
    · by_cases h3 : c.toNat < 0x10000
      · rw [if_neg h1, if_neg h2, if_pos h3] at hx
        simp only [List.mem_cons, List.mem_singleton, List.not_mem_nil, or_false] at hx
        rcases hx with hx | hx | hx <;> omega
      · rw [if_neg h1, if_neg h2, if_neg h3] at hx
        simp only [List.mem_cons, List.mem_singleton, List.not_mem_nil, or_false] at hx
        rcases hx with hx | hx | hx | hx <;> omega

theorem utf8Encode_lt (cs : List Char) : ∀ x ∈ utf8Encode cs, x < 256 := by
  intro x hx
  unfold utf8Encode at hx
  rw [List.mem_flatMap] at hx
  obtain ⟨c, _, hxc⟩ := hx
  exact utf8EncodeChar_lt c x hxc

theorem utf8Decode_cons (b : Nat) (bs : List Nat) :
    utf8Decode (b :: bs) =
      (if b < 0x80 then (utf8Decode bs).map (fun cs => Char.ofNat b :: cs)
       else if b < 0xC2 then none
       else if b < 0xE0 then
         match bs with
         | b1 :: bs2 =>
           if isContB b1 then
             (utf8Decode bs2).map
               (fun cs => Char.ofNat ((b - 0xC0) * 64 + (b1 - 0x80)) :: cs)
           else none
         | [] => none
       else if b < 0xF0 then
         match bs with
         | b1 :: b2 :: bs2 =>
           if isContB b1 && isContB b2 then
             let n := (b - 0xE0) * 4096 + (b1 - 0x80) * 64 + (b2 - 0x80)
             if n < 0x800 ∨ (0xD800 ≤ n ∧ n < 0xE000) then none
             else (utf8Decode bs2).map (fun cs => Char.ofNat n :: cs)
           else none
         | _ => none
       else if b < 0xF5 then
         match bs with
         | b1 :: b2 :: b3 :: bs2 =>
           if isContB b1 && isContB b2 && isContB b3 then
             let n := (b - 0xF0) * 0x40000 + (b1 - 0x80) * 4096 +
               (b2 - 0x80) * 64 + (b3 - 0x80)
             if n < 0x10000 ∨ 0x110000 ≤ n then none
             else (utf8Decode bs2).map (fun cs => Char.ofNat n :: cs)
           else none
         | _ => none
       else none) := by
  cases bs with
  | nil => rfl
  | cons b1 t1 =>
    cases t1 with
    | nil => rfl
    | cons b2 t2 =>
      cases t2 with
      | nil => rfl
      | cons b3 t3 => rfl

theorem utf8Decode_encChar (c : Char) (bs : List Nat) :
    utf8Decode (utf8EncodeChar c ++ bs) = (utf8Decode bs).map (fun cs => c :: cs) := by
  have hv := char_toNat_facts c
  have hofn : Char.ofNat c.toNat = c := Char.ofNat_toNat c
  unfold utf8EncodeChar
  by_cases h1 : c.toNat < 0x80
  · rw [if_pos h1]
    simp only [List.cons_append, List.nil_append]
    rw [utf8Decode_cons, if_pos h1, hofn]
  · by_cases h2 : c.toNat < 0x800
    · rw [if_neg h1, if_pos h2]
      simp only [List.cons_append, List.nil_append]
      rw [utf8Decode_cons]
      have e1 : ¬(0xC0 + c.toNat / 64 < 0x80) := by omega
      have e2 : ¬(0xC0 + c.toNat / 64 < 0xC2) := by omega
      have e3 : 0xC0 + c.toNat / 64 < 0xE0 := by omega
      have e4 : isContB (0x80 + c.toNat % 64) = true := by
        simp only [isContB, Bool.and_eq_true, decide_eq_true_eq]
        omega
      rw [if_neg e1, if_neg e2, if_pos e3]
      simp only [e4, if_true]
      have e5 : (0xC0 + c.toNat / 64 - 0xC0) * 64 + (0x80 + c.toNat % 64 - 0x80)
          = c.toNat := by omega
      rw [e5, hofn]
    · by_cases h3 : c.toNat < 0x10000
      · rw [if_neg h1, if_neg h2, if_pos h3]
        simp only [List.cons_append, List.nil_append]
        rw [utf8Decode_cons]
        have e1 : ¬(0xE0 + c.toNat / 4096 < 0x80) := by omega
        have e2 : ¬(0xE0 + c.toNat / 4096 < 0xC2) := by omega
        have e3 : ¬(0xE0 + c.toNat / 4096 < 0xE0) := by omega
        have e4 : 0xE0 + c.toNat / 4096 < 0xF0 := by omega
        have e5 : (isContB (0x80 + c.toNat / 64 % 64) && isContB (0x80 + c.toNat % 64))
            = true := by
          simp only [isContB, Bool.and_eq_true, decide_eq_true_eq]
          omega
        rw [if_neg e1, if_neg e2, if_neg e3, if_pos e4]
        simp only [e5, if_true]
        have e6 : (0xE0 + c.toNat / 4096 - 0xE0) * 4096 +
            (0x80 + c.toNat / 64 % 64 - 0x80) * 64 + (0x80 + c.toNat % 64 - 0x80)
            = c.toNat := by omega
        simp only [e6]
        have e7 : ¬(c.toNat < 0x800 ∨ (0xD800 ≤ c.toNat ∧ c.toNat < 0xE000)) := by
          have := hv.2
          omega
        rw [if_neg e7, hofn]
      · rw [if_neg h1, if_neg h2, if_neg h3]
        simp only [List.cons_append, List.nil_append]
        rw [utf8Decode_cons]
        have hlt := hv.1
        have e1 : ¬(0xF0 + c.toNat / 0x40000 < 0x80) := by omega
        have e2 : ¬(0xF0 + c.toNat / 0x40000 < 0xC2) := by omega
        have e3 : ¬(0xF0 + c.toNat / 0x40000 < 0xE0) := by omega
        have e4 : ¬(0xF0 + c.toNat / 0x40000 < 0xF0) := by omega
        have e5 : 0xF0 + c.toNat / 0x40000 < 0xF5 := by omega
        have e6 : (isContB (0x80 + c.toNat / 4096 % 64) &&
            isContB (0x80 + c.toNat / 64 % 64) && isContB (0x80 + c.toNat % 64))
            = true := by
          simp only [isContB, Bool.and_eq_true, decide_eq_true_eq]
          omega
        rw [if_neg e1, if_neg e2, if_neg e3, if_neg e4, if_pos e5]
        simp only [e6, if_true]
        have e7 : (0xF0 + c.toNat / 0x40000 - 0xF0) * 0x40000 +
            (0x80 + c.toNat / 4096 % 64 - 0x80) * 4096 +
            (0x80 + c.toNat / 64 % 64 - 0x80) * 64 + (0x80 + c.toNat % 64 - 0x80)
            = c.toNat := by omega
        simp only [e7]
        have e8 : ¬(c.toNat < 0x10000 ∨ 0x110000 ≤ c.toNat) := by omega
        rw [if_neg e8, hofn]

theorem utf8_roundtrip (cs : List Char) : utf8Decode (utf8Encode cs) = some cs := by
  induction cs with
  | nil => rfl
  | cons c rest ih =>
    have : utf8Encode (c :: rest) = utf8EncodeChar c ++ utf8Encode rest := by
      simp [utf8Encode]
    rw [this, utf8Decode_encChar, ih]
    rfl

theorem b64idx_tbl : ∀ v, v < 64 → b64idx (b64tbl v) = some v := by decide

theorem b64tbl_ne_pad : ∀ v, v < 64 → b64tbl v ≠ '=' := by decide

theorem b64_roundtrip (bs : List Nat) (h : ∀ x ∈ bs, x < 256) :
    b64decode (b64encode bs) = some bs := by
  match bs with
  | [] => rfl
  | [a] =>
    have ha : a < 256 := h a (by simp)
    rw [b64encode, b64decode]
    rw [b64idx_tbl (a / 4) (by omega), b64idx_tbl (a % 4 * 16) (by omega)]
    simp only [Option.some_bind]
    rw [if_pos ⟨trivial, trivial, trivial⟩]
    have e1 : a / 4 * 4 + a % 4 * 16 / 16 = a := by omega
    rw [e1]
  | [a, b] =>
    have ha : a < 256 := h a (by simp)
    have hb : b < 256 := h b (by simp)
    have hne : b64tbl (b % 16 * 4) ≠ '=' := b64tbl_ne_pad _ (by omega)
    rw [b64encode, b64decode]
    rw [b64idx_tbl (a / 4) (by omega), b64idx_tbl (a % 4 * 16 + b / 16) (by omega)]
    simp only [Option.some_bind]
    rw [if_neg (fun hcc => hne hcc.1)]
    rw [if_pos ⟨trivial, trivial⟩]
    rw [b64idx_tbl (b % 16 * 4) (by omega)]
    simp only [Option.map_some']
    have e1 : a / 4 * 4 + (a % 4 * 16 + b / 16) / 16 = a := by omega
    have e2 : (a % 4 * 16 + b / 16) % 16 * 16 + b % 16 * 4 / 4 = b := by omega
    rw [e1, e2]
  | a :: b :: c :: rest =>
    have ha : a < 256 := h a (by simp)
    have hb : b < 256 := h b (by simp)
    have hc : c < 256 := h c (by simp)
    have hne1 : b64tbl (b % 16 * 4 + c / 64) ≠ '=' := b64tbl_ne_pad _ (by omega)
    have hne2 : b64tbl (c % 64) ≠ '=' := b64tbl_ne_pad _ (by omega)
    rw [b64encode, b64decode]
    rw [b64idx_tbl (a / 4) (by omega), b64idx_tbl (a % 4 * 16 + b / 16) (by omega)]
    simp only [Option.some_bind]
    rw [if_neg (fun hcc => hne1 hcc.1)]
    rw [if_neg (fun hcc => hne2 hcc.1)]
    rw [b64idx_tbl (b % 16 * 4 + c / 64) (by omega), b64idx_tbl (c % 64) (by omega)]
    simp only [Option.some_bind]
    rw [b64_roundtrip rest (fun x hx => h x (by simp [hx]))]
    simp only [Option.map_some']
    have e1 : a / 4 * 4 + (a % 4 * 16 + b / 16) / 16 = a := by omega
    have e2 : (a % 4 * 16 + b / 16) % 16 * 16 + (b % 16 * 4 + c / 64) / 4 = b := by
      omega
    have e3 : (b % 16 * 4 + c / 64) % 4 * 64 + c % 64 = c := by omega
    rw [e1, e2, e3]

/-- C5: for every text and any lossless byte-level `zlib` implementation,
compressing with the local fallback backend (`_simulate_compress`) and then
decompressing the resulting base64 blob with method `'simulated'`
(`decompress_text`) yields exactly the original text. -/
theorem claim_C5 : ∀ (zlibCompress zlibDecompress : List Nat → List Nat),
    (∀ bs, zlibDecompress (zlibCompress bs) = bs) →
    (∀ bs, (∀ x ∈ bs, x < 256) → ∀ x ∈ zlibCompress bs, x < 256) →
    ∀ text : String,
      decompress_text zlibDecompress
        (_simulate_compress zlibCompress text).compressed_blob_b64 ("simulated")
        = some text := by
  intro zc zd hz hb text
  unfold decompress_text _simulate_compress _simulate_decompress
  simp only [if_pos rfl]
  have hlist : (String.mk (b64encode (zc (utf8Encode text.toList)))).toList
      = b64encode (zc (utf8Encode text.toList)) := rfl
  rw [hlist, b64_roundtrip _ (hb _ (utf8Encode_lt text.toList))]
  simp only [Option.some_bind]
  rw [hz, utf8_roundtrip]
  simp only [Option.map_some']
  cases text
  rfl

theorem claim_C5_witness :
    decompress_text id (_simulate_compress id ("hello")).compressed_blob_b64
      ("simulated") = some ("hello") :=
  claim_C5 id id (fun _ => rfl) (fun _ h x hx => h x hx) ("hello")

/-! ## C6: CSV cell parsing precedence -/

theorem csv_cell_jarr (v : String) (xs : List JVal) (hv : v ≠ "")
    (hh : (pyStrip v).toList.head? = some '[')
    (hj : jsonLoads (pyStrip v) = some (JVal.jarr xs)) :
    parse_csv_cell (some v) = xs.map pyStr := by
  have hh2 : (pyStrip v).data.head? = some '[' := hh
  simp [parse_csv_cell, hv, hh2, hj]

theorem csv_cell_jobj (v : String) (fs : List (String × JVal)) (hv : v ≠ "")
    (hh : (pyStrip v).toList.head? = some lbraceCh)
    (hj : jsonLoads (pyStrip v) = some (JVal.jobj fs)) :
    parse_csv_cell (some v) = [jsonDumps (JVal.jobj fs)] := by
  have hh2 : (pyStrip v).data.head? = some lbraceCh := hh
  simp [parse_csv_cell, hv, hh2, hj]

theorem csv_cell_split (v : String) (hv : v ≠ "")
    (hh1 : (pyStrip v).toList.head? ≠ some '[')
    (hh2 : (pyStrip v).toList.head? ≠ some lbraceCh) :
    parse_csv_cell (some v) = split_delimited_field (some (pyStrip v)) := by
  have hd1 : (pyStrip v).data.head? ≠ some '[' := hh1
  have hd2 : (pyStrip v).data.head? ≠ some lbraceCh := hh2
  simp [parse_csv_cell, hv, hd1, hd2]

theorem hasSub_head_false (x : Char) (t l : List Char) (h : x ∉ l) :
    hasSub (x :: t) l = false := by
  induction l with
  | nil => simp [hasSub, List.isPrefixOf]
  | cons c r ih =>
    have hxc : x ≠ c := fun he => h (by simp [he])
    have hr : x ∉ r := fun hm => h (by simp [hm])
    simp [hasSub, List.isPrefixOf, hxc, ih hr]

theorem split_no_delims (w : String) (hw : w ≠ "")
    (h1 : '|' ∉ w.toList) (h2 : '\n' ∉ w.toList) (h3 : ';' ∉ w.toList) :
    split_delimited_field (some w) = [pyStrip w] := by
  have hs : hasSub ['|', '|'] w.data = false := hasSub_head_false '|' _ _ h1
  have hd1 : '|' ∉ w.data := h1
  have hd2 : '\n' ∉ w.data := h2
  have hd3 : ';' ∉ w.data := h3
  simp [split_delimited_field, hw, hs, hd1, hd2, hd3]

/-- C6: `parse_csv_cell` attempts JSON first for bracket/brace-prefixed
cells (array → elements stringified, object → one-element `json.dumps`
list), otherwise splits by the first delimiter in priority order `"||"`,
newline, `";"`, `"|"`, and with no delimiter yields the trimmed cell; the
three example cells parse as claimed. -/
theorem claim_C6 :
    parse_csv_cell (some ("[\"egg\",\"flour\"]")) = [("egg"), ("flour")] ∧
    parse_csv_cell (some ("egg; flour")) = [("egg"), ("flour")] ∧
    parse_csv_cell (some ("egg || flour || milk")) = [("egg"), ("flour"), ("milk")] ∧
    (∀ (v : String) (xs : List JVal), v ≠ "" →
      (pyStrip v).toList.head? = some '[' →
      jsonLoads (pyStrip v) = some (JVal.jarr xs) →
      parse_csv_cell (some v) = xs.map pyStr) ∧
    (∀ (v : String) (fs : List (String × JVal)), v ≠ "" →
      (pyStrip v).toList.head? = some lbraceCh →
      jsonLoads (pyStrip v) = some (JVal.jobj fs) →
      parse_csv_cell (some v) = [jsonDumps (JVal.jobj fs)]) ∧
    (∀ v : String, v ≠ "" →
      (pyStrip v).toList.head? ≠ some '[' →
      (pyStrip v).toList.head? ≠ some lbraceCh →
      parse_csv_cell (some v) = split_delimited_field (some (pyStrip v))) ∧
    (∀ w : String, w ≠ "" →
      '|' ∉ w.toList → '\n' ∉ w.toList → ';' ∉ w.toList →
      split_delimited_field (some w) = [pyStrip w]) := by
  refine ⟨?_, by decide, by decide, csv_cell_jarr, csv_cell_jobj, csv_cell_split,
    split_no_delims⟩
  have h := csv_cell_jarr ("[\"egg\",\"flour\"]")
    [JVal.jstr ("egg"), JVal.jstr ("flour")] (by decide) (by rfl) (by rfl)
  rw [h]
  simp [pyStr]

theorem claim_C6_witness :
    parse_csv_cell (some ("[\"egg\",\"milk\"]"))
      = [JVal.jstr ("egg"), JVal.jstr ("milk")].map pyStr :=
  claim_C6.2.2.2.1 ("[\"egg\",\"milk\"]") [JVal.jstr ("egg"), JVal.jstr ("milk")]
    (by decide) (by rfl) (by rfl)

/-! ## Infrastructure for the ingredient-regex theorems (C2/C3/C4) -/

theorem char_eq_iff_toNat (a b : Char) : a = b ↔ a.toNat = b.toNat :=
  ⟨fun h => by rw [h], fun h => Char.eq_of_val_eq (UInt32.ext h)⟩

theorem space_not_digit (c : Char) (h : isSpaceCh c = true) : isDigitCh c = false := by
  simp only [isSpaceCh, Bool.or_eq_true, decide_eq_true_eq] at h
  rcases h with ((((h | h) | h) | h) | h) | h <;> subst h <;> decide

theorem space_not_alpha (c : Char) (h : isSpaceCh c = true) : isAlphaCh c = false := by
  simp only [isSpaceCh, Bool.or_eq_true, decide_eq_true_eq] at h
  rcases h with ((((h | h) | h) | h) | h) | h <;> subst h <;> decide

theorem alpha_not_digit (c : Char) (h : isAlphaCh c = true) : isDigitCh c = false := by
  simp only [isAlphaCh, Bool.or_eq_true, Bool.and_eq_true, decide_eq_true_eq] at h
  simp only [isDigitCh, Bool.and_eq_true, decide_eq_true_eq]
  by_contra hc
  simp only [Bool.not_eq_false, Bool.and_eq_true, decide_eq_true_eq] at hc
  have d1 : 48 ≤ c.toNat := hc.1
  have d2 : c.toNat ≤ 57 := hc.2
  rcases h with ⟨h1, h2⟩ | ⟨h1, h2⟩
  · have : (97 : Nat) ≤ c.toNat := h1
    omega
  · have a1 : (65 : Nat) ≤ c.toNat := h1
    have a2 : c.toNat ≤ 90 := h2
    omega

theorem alpha_not_space (c : Char) (h : isAlphaCh c = true) : isSpaceCh c = false := by
  by_contra hc
  simp only [Bool.not_eq_false] at hc
  rw [space_not_alpha c hc] at h
  cases h

theorem digit_not_space (c : Char) (h : isDigitCh c = true) : isSpaceCh c = false := by
  by_contra hc
  simp only [Bool.not_eq_false] at hc
  rw [space_not_digit c hc] at h
  cases h

theorem digit_not_alpha (c : Char) (h : isDigitCh c = true) : isAlphaCh c = false := by
  by_contra hc
  simp only [Bool.not_eq_false] at hc
  rw [alpha_not_digit c hc] at h
  cases h

theorem ne_of_class (c d : Char) (p : Char → Bool) (hc : p c = true)
    (hd : p d = false) : c ≠ d := by
  intro he
  subst he
  rw [hc] at hd
  cases hd

theorem head?_dropWhile_false (p : Char → Bool) (l : List Char) (c : Char)
    (h : (l.dropWhile p).head? = some c) : p c = false := by
  induction l with
  | nil => simp at h
  | cons x xs ih =>
    rw [List.dropWhile_cons] at h
    by_cases hx : p x
    · simp only [hx, if_true] at h
      exact ih h
    · have hx2 : p x = false := by simpa using hx
      rw [hx2] at h
      simp only [Bool.false_eq_true, if_false, List.head?_cons, Option.some.injEq] at h
      subst h
      simpa using hx

theorem takeWhile_of_all {p : Char → Bool} {l : List Char}
    (h : ∀ c ∈ l, p c = true) : l.takeWhile p = l ∧ l.dropWhile p = [] := by
  have := takeWhile_append_eq p l [] (by simpa using h) (by simp)
  simpa using this

theorem dropWhile_append_of_all {p : Char → Bool} {a y : List Char}
    (ha : ∀ c ∈ a, p c = true) : (a ++ y).dropWhile p = y.dropWhile p := by
  induction a with
  | nil => simp
  | cons x xs ih =>
    have hx : p x = true := ha x (by simp)
    simp only [List.cons_append, List.dropWhile_cons, hx, if_true]
    exact ih (fun c hc => ha c (by simp [hc]))

theorem dropWhile_append_of_ne {p : Char → Bool} {y : List Char} (r : List Char)
    (h : y.dropWhile p ≠ []) : (y ++ r).dropWhile p = y.dropWhile p ++ r := by
  induction y with
  | nil => simp at h
  | cons x xs ih =>
    by_cases hx : p x
    · rw [List.dropWhile_cons, if_pos hx] at h
      simp only [List.cons_append, List.dropWhile_cons, hx, if_true]
      exact ih h
    · have hx2 : p x = false := by simpa using hx
      simp only [List.cons_append, List.dropWhile_cons, hx2, Bool.false_eq_true, if_false]

theorem pyStripChars_left (a y : List Char) (ha : ∀ c ∈ a, isSpaceCh c = true) :
    pyStripChars (a ++ y) = pyStripChars y := by
  unfold pyStripChars pyStripBy stripLeftBy
  rw [dropWhile_append_of_all ha]

theorem pyStripChars_right (y r : List Char) (hr : ∀ c ∈ r, isSpaceCh c = true) :
    pyStripChars (y ++ r) = pyStripChars y := by
  unfold pyStripChars pyStripBy stripLeftBy
  by_cases hy : y.dropWhile isSpaceCh = []
  · have hall : ∀ x ∈ y, isSpaceCh x = true := by
      rw [List.dropWhile_eq_nil_iff] at hy
      exact hy
    have hall2 : ∀ c ∈ y ++ r, isSpaceCh c = true := by
      intro c hc
      rcases List.mem_append.mp hc with h | h
      · exact hall c h
      · exact hr c h
    rw [(takeWhile_of_all hall2).2, hy]
  · rw [dropWhile_append_of_ne r hy]
    rw [List.reverse_append]
    rw [dropWhile_append_of_all (fun c hc => hr c (by simpa using hc))]

theorem pyStripChars_sandwich (a y r : List Char)
    (ha : ∀ c ∈ a, isSpaceCh c = true) (hr : ∀ c ∈ r, isSpaceCh c = true) :
    pyStripChars (a ++ (y ++ r)) = pyStripChars y := by
  rw [pyStripChars_left a (y ++ r) ha, pyStripChars_right y r hr]

/-! ### Search-combinator lemmas -/

theorem tryKs_first {α : Type} (f : Nat → Option α) (n : Nat) (x : α)
    (h : f n = some x) : tryKs f n = some x := by
  cases n <;> simp [tryKs, h]

theorem tryLens_first {α : Type} (f : Nat → Option α) (n : Nat) (x : α)
    (h : f (n + 1) = some x) : tryLens f (n + 1) = some x := by
  simp [tryLens, h]

theorem firstSome_cons_some {α β : Type} (f : α → Option β) (a : α) (l : List α)
    (x : β) (h : f a = some x) : firstSome f (a :: l) = some x := by
  simp [firstSome, h]

theorem tryKs_some {α : Type} (f : Nat → Option α) :
    ∀ (n : Nat) (x : α), tryKs f n = some x → ∃ k, k ≤ n ∧ f k = some x := by
  intro n
  induction n with
  | zero =>
    intro x h
    exact ⟨0, Nat.le_refl 0, h⟩
  | succ m ih =>
    intro x h
    rw [tryKs] at h
    rcases he : f (m + 1) with _ | y
    · rw [he] at h
      obtain ⟨k, hk, hf⟩ := ih x h
      exact ⟨k, Nat.le_succ_of_le hk, hf⟩
    · rw [he] at h
      exact ⟨m + 1, Nat.le_refl _, he.trans h⟩

theorem tryLens_some {α : Type} (f : Nat → Option α) :
    ∀ (n : Nat) (x : α), tryLens f n = some x →
      ∃ k, 1 ≤ k ∧ k ≤ n ∧ f k = some x := by
  intro n
  induction n with
  | zero =>
    intro x h
    simp [tryLens] at h
  | succ m ih =>
    intro x h
    rw [tryLens] at h
    rcases he : f (m + 1) with _ | y
    · rw [he] at h
      obtain ⟨k, h1, hk, hf⟩ := ih x h
      exact ⟨k, h1, Nat.le_succ_of_le hk, hf⟩
    · rw [he] at h
      exact ⟨m + 1, by omega, Nat.le_refl _, he.trans h⟩

theorem matchName_some (cs nm : List Char) (h : matchName cs = some nm) :
    nm = cs.takeWhile (fun c => c ≠ '\n') ∧ nm ≠ [] ∧
    (cs.dropWhile (fun c => c ≠ '\n') = [] ∨
     cs.dropWhile (fun c => c ≠ '\n') = ['\n']) := by
  unfold matchName at h
  split at h
  · exact Option.noConfusion h
  · rename_i hA
    split at h
    · rename_i hB
      injection h with h
      subst h
      refine ⟨rfl, ?_, ?_⟩
      · simpa [List.isEmpty_iff] using hA
      · rcases Bool.or_eq_true_iff.mp hB with h3 | h3
        · exact Or.inl (by simpa [List.isEmpty_iff] using h3)
        · exact Or.inr (by simpa using h3)
    · exact Option.noConfusion h

/-! ## C4: totality and the fallback case -/

/-- C4 (amended): `parse_ingredient` is total by construction, always
returns a record carrying the input as `raw`, and in the fallback case
(regex match failure) yields the whole line *trimmed* as `name` with null
quantity and unit. -/
theorem claim_C4 : ∀ s : String,
    (parse_ingredient s).raw = s ∧
    (ingMatch s.toList = none →
      parse_ingredient s = ⟨s, none, none, pyStrip s⟩) := by
  intro s
  unfold parse_ingredient
  rcases hm : ingMatch s.toList with _ | g
  · exact ⟨rfl, fun _ => rfl⟩
  · exact ⟨rfl, fun hc => Option.noConfusion hc⟩

/-- C4 counterexample: on `" a\nb\nc"` the regex fails, and the fallback
name is the *stripped* line, not the whole line. -/
theorem claim_C4_cx :
    ingMatch ((" a\nb\nc") : String).toList = none ∧
    parse_ingredient (" a\nb\nc") = ⟨(" a\nb\nc"), none, none, ("a\nb\nc")⟩ ∧
    (("a\nb\nc") : String) ≠ (" a\nb\nc") := by
  refine ⟨by decide, by decide, by decide⟩

theorem claim_C4_witness :
    (parse_ingredient ("")).raw = ("" : String) ∧
    (ingMatch (("" : String)).toList = none →
      parse_ingredient ("") = ⟨(""), none, none, pyStrip ("")⟩) :=
  claim_C4 ("")

/-! ## C2: strings with no leading number -/

theorem tryQtyAt_no_digit (u : List Char) (h : runLen isDigitCh u = 0) :
    tryQtyAt u = (tryAfterQty u).map (fun un => ⟨none, un.1, un.2⟩) := by
  unfold tryQtyAt
  rw [h]
  simp [tryLens]

theorem tryUnitName_no_alpha (u : List Char) (h : runLen isAlphaCh u = 0) :
    tryUnitName u = (tryWsName u).map (fun nm => (none, nm)) := by
  unfold tryUnitName
  rw [h]
  simp [tryLens]

/-- Any position the leading-`\s*` search can reach is inside the
whitespace prefix or at its end; characters there are whitespace or the
first non-whitespace character. -/
theorem head_class_at (cs : List Char) (pcls : Char → Bool)
    (hsp : ∀ c, isSpaceCh c = true → pcls c = false)
    (hT : ∀ c, (cs.dropWhile isSpaceCh).head? = some c → pcls c = false)
    (k : Nat) :
    ∀ c, ((cs.takeWhile isSpaceCh).drop k ++ cs.dropWhile isSpaceCh).head? = some c →
      pcls c = false := by
  intro c hc
  rcases hd : (cs.takeWhile isSpaceCh).drop k with _ | ⟨w, ws⟩
  · rw [hd] at hc
    exact hT c (by simpa using hc)
  · rw [hd] at hc
    simp only [List.cons_append, List.head?_cons, Option.some.injEq] at hc
    have hw : w ∈ cs.takeWhile isSpaceCh :=
      List.mem_of_mem_drop (hd ▸ List.mem_cons_self w ws)
    rw [← hc]
    exact hsp w (List.mem_takeWhile_imp hw)

theorem ingMatch_inv (cs : List Char)
    (h1 : ∀ c, (cs.dropWhile isSpaceCh).head? = some c → isDigitCh c = false)
    (g : IngGroups) (hm : ingMatch cs = some g) :
    g.qty = none ∧
    ((∀ c, (cs.dropWhile isSpaceCh).head? = some c → isAlphaCh c = false) →
      g.unit = none ∧ pyStripChars g.name = pyStripChars cs) := by
  have hWsp : ∀ c ∈ cs.takeWhile isSpaceCh, isSpaceCh c = true :=
    fun c hc => List.mem_takeWhile_imp hc
  have hThd : ∀ c, (cs.dropWhile isSpaceCh).head? = some c → isSpaceCh c = false :=
    fun c hc => head?_dropWhile_false _ _ _ hc
  have hcsWT : cs = cs.takeWhile isSpaceCh ++ cs.dropWhile isSpaceCh :=
    (List.takeWhile_append_dropWhile _ _).symm
  have hdrop : ∀ k, k ≤ (cs.takeWhile isSpaceCh).length →
      cs.drop k = (cs.takeWhile isSpaceCh).drop k ++ cs.dropWhile isSpaceCh := by
    intro k hk
    conv_lhs => rw [hcsWT]
    exact List.drop_append_of_le_length hk
  have hrl : runLen isSpaceCh cs = (cs.takeWhile isSpaceCh).length := rfl
  unfold ingMatch at hm
  rw [hrl] at hm
  obtain ⟨k1, hk1, hf1⟩ := tryKs_some _ _ _ hm
  rw [hdrop k1 hk1] at hf1
  have hdig : runLen isDigitCh
      ((cs.takeWhile isSpaceCh).drop k1 ++ cs.dropWhile isSpaceCh) = 0 :=
    runLen_zero _ _ (head_class_at cs isDigitCh space_not_digit h1 k1)
  rw [tryQtyAt_no_digit _ hdig] at hf1
  obtain ⟨un, hun, hg⟩ := Option.map_eq_some'.mp hf1
  refine ⟨by rw [← hg], fun h2 => ?_⟩
  unfold tryAfterQty at hun
  obtain ⟨k2, hk2, hf2⟩ := tryKs_some _ _ _ hun
  have hsp1 : runLen isSpaceCh
      ((cs.takeWhile isSpaceCh).drop k1 ++ cs.dropWhile isSpaceCh)
      = (cs.takeWhile isSpaceCh).length - k1 := by
    rw [runLen_append isSpaceCh _ _
      (fun c hc => hWsp c (List.mem_of_mem_drop hc)) hThd, List.length_drop]
  rw [hsp1] at hk2
  have hdrop2 : ((cs.takeWhile isSpaceCh).drop k1 ++ cs.dropWhile isSpaceCh).drop k2
      = (cs.takeWhile isSpaceCh).drop (k1 + k2) ++ cs.dropWhile isSpaceCh := by
    rw [List.drop_append_of_le_length (by rw [List.length_drop]; omega),
      List.drop_drop]
  rw [hdrop2] at hf2
  have halpha : runLen isAlphaCh
      ((cs.takeWhile isSpaceCh).drop (k1 + k2) ++ cs.dropWhile isSpaceCh) = 0 :=
    runLen_zero _ _ (head_class_at cs isAlphaCh space_not_alpha h2 (k1 + k2))
  rw [tryUnitName_no_alpha _ halpha] at hf2
  obtain ⟨nm, hnm, hun2⟩ := Option.map_eq_some'.mp hf2
  have hunit : g.unit = none := by
    rw [← hg, ← hun2]
  refine ⟨hunit, ?_⟩
  unfold tryWsName at hnm
  obtain ⟨k3, hk3, hf3⟩ := tryKs_some _ _ _ hnm
  have hsp2 : runLen isSpaceCh
      ((cs.takeWhile isSpaceCh).drop (k1 + k2) ++ cs.dropWhile isSpaceCh)
      = (cs.takeWhile isSpaceCh).length - (k1 + k2) := by
    rw [runLen_append isSpaceCh _ _
      (fun c hc => hWsp c (List.mem_of_mem_drop hc)) hThd, List.length_drop]
  rw [hsp2] at hk3
  have hdrop3 : ((cs.takeWhile isSpaceCh).drop (k1 + k2) ++
      cs.dropWhile isSpaceCh).drop k3
      = (cs.takeWhile isSpaceCh).drop (k1 + k2 + k3) ++ cs.dropWhile isSpaceCh := by
    rw [List.drop_append_of_le_length (by rw [List.length_drop]; omega),
      List.drop_drop]
  rw [hdrop3] at hf3
  obtain ⟨hnm_eq, _, hrest⟩ := matchName_some _ _ hf3
  have hdecomp : (cs.takeWhile isSpaceCh).drop (k1 + k2 + k3) ++
      cs.dropWhile isSpaceCh
      = nm ++ ((cs.takeWhile isSpaceCh).drop (k1 + k2 + k3) ++
          cs.dropWhile isSpaceCh).dropWhile (fun c => decide (c ≠ '\n')) := by
    conv_lhs => rw [← List.takeWhile_append_dropWhile
      (fun c => decide (c ≠ '\n'))
      ((cs.takeWhile isSpaceCh).drop (k1 + k2 + k3) ++ cs.dropWhile isSpaceCh)]
    rw [← hnm_eq]
  have hcs2 : cs = (cs.takeWhile isSpaceCh).take (k1 + k2 + k3) ++
      (nm ++ ((cs.takeWhile isSpaceCh).drop (k1 + k2 + k3) ++
        cs.dropWhile isSpaceCh).dropWhile (fun c => decide (c ≠ '\n'))) := by
    rw [← hdecomp]
    conv_lhs => rw [hcsWT]
    rw [← List.append_assoc, List.take_append_drop]
  have hrest_sp : ∀ c ∈ ((cs.takeWhile isSpaceCh).drop (k1 + k2 + k3) ++
      cs.dropWhile isSpaceCh).dropWhile (fun c => decide (c ≠ '\n')),
      isSpaceCh c = true := by
    intro c hc
    rcases hrest with hr | hr
    · rw [hr] at hc
      cases hc
    · rw [hr] at hc
      simp only [List.mem_singleton] at hc
      subst hc
      decide
  have hname : g.name = nm := by rw [← hg, ← hun2]
  rw [hname]
  conv_rhs => rw [hcs2]
  rw [pyStripChars_sandwich _ _ _
    (fun c hc => hWsp c (List.mem_of_mem_take hc)) hrest_sp]

/-- C2 (amended): for every ingredient string that does not begin (after
leading whitespace) with an ASCII digit, `parse_ingredient` returns a null
quantity; if the string moreover does not begin with an ASCII letter, the
unit is also null and `name` is the whole input trimmed.  (When the string
begins with a letter, the regex instead consumes the leading alphabetic
token as the `unit` — see the counterexample.) -/
theorem claim_C2 : ∀ s : String,
    ((s.toList.dropWhile isSpaceCh).head?.all (fun c => !isDigitCh c) = true) →
    (parse_ingredient s).quantity = none ∧ (parse_ingredient s).raw = s ∧
    (((s.toList.dropWhile isSpaceCh).head?.all (fun c => !isAlphaCh c) = true) →
      (parse_ingredient s).unit = none ∧ (parse_ingredient s).name = pyStrip s) := by
  intro s h1
  have h1' : ∀ c, (s.toList.dropWhile isSpaceCh).head? = some c →
      isDigitCh c = false := by
    intro c hc
    rw [hc] at h1
    simpa using h1
  unfold parse_ingredient
  rcases hm : ingMatch s.toList with _ | g
  · refine ⟨rfl, rfl, fun _ => ⟨rfl, rfl⟩⟩
  · have hinv := ingMatch_inv s.toList h1' g hm
    refine ⟨?_, rfl, ?_⟩
    · simp only [hinv.1]
    · intro h2
      have h2' : ∀ c, (s.toList.dropWhile isSpaceCh).head? = some c →
          isAlphaCh c = false := by
        intro c hc
        rw [hc] at h2
        simpa using h2
      obtain ⟨hu, hn⟩ := hinv.2 h2'
      constructor
      · simp only [hu]
        rfl
      · show pyStrip (String.mk g.name) = pyStrip s
        unfold pyStrip
        rw [show (String.mk g.name).toList = g.name from rfl]
        rw [hn]

/-- C2 counterexample: `"salt"` has no leading number, yet the regex
consumes `"sal"` as the unit and leaves `name = "t"`, not the whole
trimmed string. -/
theorem claim_C2_cx :
    (parse_ingredient ("salt")).quantity = none ∧
    (parse_ingredient ("salt")).unit = some ("sal") ∧
    (parse_ingredient ("salt")).name = ("t") ∧
    (parse_ingredient ("salt")).name ≠ pyStrip ("salt") := by
  decide

theorem claim_C2_witness :
    (parse_ingredient ("- salt")).quantity = none ∧
    (parse_ingredient ("- salt")).raw = ("- salt" : String) ∧
    ((((("- salt" : String)).toList.dropWhile isSpaceCh).head?.all
        (fun c => !isAlphaCh c) = true) →
      (parse_ingredient ("- salt")).unit = none ∧
      (parse_ingredient ("- salt")).name = pyStrip ("- salt")) :=
  claim_C2 ("- salt") (by decide)

/-! ## C3: well-formed quantities followed by a known unit -/

theorem mk_ne_empty (l : List Char) (h : l ≠ []) : String.mk l ≠ "" :=
  fun he => h (congrArg String.data he)

theorem getLast?_append_right (l r : List Char) (hr : r ≠ []) :
    (l ++ r).getLast? = r.getLast? := by
  rw [List.getLast?_append]
  cases hrl : r.getLast? with
  | none => exact absurd (List.getLast?_eq_none_iff.mp hrl) hr
  | some x => rfl

theorem getLast?_digit_tail (x : List Char) (m : Char) (b : List Char)
    (hb0 : b ≠ []) (hb : ∀ c ∈ b, isDigitCh c = true) :
    ∀ c, (x ++ m :: b).getLast? = some c → isDigitCh c = true := by
  intro c hc
  have he : x ++ m :: b = (x ++ [m]) ++ b := by simp
  rw [he, getLast?_append_right _ b hb0, List.getLast?_eq_getLast b hb0] at hc
  injection hc with hc
  rw [← hc]
  exact hb _ (List.getLast_mem hb0)

theorem pyStripChars_id (l : List Char)
    (hh : ∀ c, l.head? = some c → isSpaceCh c = false)
    (hl : ∀ c, l.getLast? = some c → isSpaceCh c = false) :
    pyStripChars l = l := by
  unfold pyStripChars pyStripBy stripLeftBy
  have h1 : l.dropWhile isSpaceCh = l := by
    simpa using (takeWhile_append_eq isSpaceCh [] l (by simp) hh).2
  have h2 : l.reverse.dropWhile isSpaceCh = l.reverse := by
    have hh2 : ∀ c, l.reverse.head? = some c → isSpaceCh c = false := by
      intro c hc
      rw [List.head?_reverse] at hc
      exact hl c hc
    simpa using (takeWhile_append_eq isSpaceCh [] l.reverse (by simp) hh2).2
  rw [h1, h2, List.reverse_reverse]

/-- Dot-free keys of `UNIT_MAP` are nonempty, all-alphabetic, and fixed
points of the lower/strip/rstrip-dots normalization chain. -/
theorem unit_key_facts : ∀ p ∈ UNIT_MAP, ('.' ∉ p.1.toList) →
    p.1.toList ≠ [] ∧ p.1.toList.all isAlphaCh = true ∧
    rstripDots (pyStrip (pyLower p.1)) = p.1 := by decide

theorem normalize_unit_key (us : List Char)
    (hmem : (String.mk us) ∈ UNIT_MAP.map Prod.fst) (hdot : '.' ∉ us) :
    normalize_unit (some (String.mk us)) = some (unitMapGet (String.mk us)) ∧
    us ≠ [] ∧ (∀ c ∈ us, isAlphaCh c = true) := by
  obtain ⟨p, hp, hfst⟩ := List.mem_map.mp hmem
  have hus : p.1.toList = us := by rw [hfst]; rfl
  have hdot' : '.' ∉ p.1.toList := by rw [hus]; exact hdot
  obtain ⟨hne, hall, hnorm⟩ := unit_key_facts p hp hdot'
  rw [← hfst]
  refine ⟨?_, ?_, ?_⟩
  · have hne' : p.1 ≠ "" := by
      intro he
      apply hne
      rw [he]
      rfl
    show (if p.1 = "" then none
      else some (unitMapGet (rstripDots (pyStrip (pyLower p.1))))) =
      some (unitMapGet p.1)
    rw [if_neg hne', hnorm]
  · rw [← hus]; exact hne
  · intro c hc
    rw [← hus] at hc
    exact List.all_eq_true.mp hall c hc

theorem runLen_cons_pos (p : Char → Bool) (c : Char) (l : List Char)
    (hc : p c = true) (h0 : runLen p l = 0) : runLen p (c :: l) = 1 := by
  unfold runLen at h0 ⊢
  rw [List.takeWhile_cons, if_pos hc, List.length_cons, List.length_eq_zero.mp h0]
  rfl

theorem matchName_all (ns : List Char) (hn0 : ns ≠ []) (hnn : '\n' ∉ ns) :
    matchName ns = some ns := by
  have hall : ∀ c ∈ ns, (fun c => decide (c ≠ '\n')) c = true := by
    intro c hc
    simp only [decide_eq_true_eq]
    intro he
    subst he
    exact hnn hc
  have ht := takeWhile_of_all hall
  unfold matchName
  rw [ht.1, ht.2]
  simp [hn0]

theorem tryWsName_one (ns : List Char) (hn0 : ns ≠ []) (hnn : '\n' ∉ ns)
    (hnh : ∀ c, ns.head? = some c → isSpaceCh c = false) :
    tryWsName (' ' :: ns) = some ns := by
  unfold tryWsName
  rw [runLen_cons_pos isSpaceCh ' ' ns (by decide) (runLen_zero isSpaceCh ns hnh)]
  apply tryKs_first
  show matchName ((' ' :: ns).drop 1) = some ns
  rw [List.drop_one, List.tail_cons]
  exact matchName_all ns hn0 hnn

theorem tryUnitName_unit (us ns : List Char) (hu0 : us ≠ [])
    (hua : ∀ c ∈ us, isAlphaCh c = true)
    (hn0 : ns ≠ []) (hnn : '\n' ∉ ns)
    (hnh : ∀ c, ns.head? = some c → isSpaceCh c = false) :
    tryUnitName (us ++ ' ' :: ns) = some (some us, ns) := by
  obtain ⟨u0, us', rfl⟩ := List.exists_cons_of_ne_nil hu0
  unfold tryUnitName
  have hrl : runLen isAlphaCh ((u0 :: us') ++ ' ' :: ns) = (u0 :: us').length :=
    runLen_append isAlphaCh _ _ hua
      (by intro c hc
          simp only [List.head?_cons, Option.some.injEq] at hc
          subst hc
          decide)
  rw [hrl, show (u0 :: us').length = us'.length + 1 from rfl]
  have hstep : (tryWsName (((u0 :: us') ++ ' ' :: ns).drop (us'.length + 1))).map
      (fun nm => (some (((u0 :: us') ++ ' ' :: ns).take (us'.length + 1)), nm))
      = some (some (u0 :: us'), ns) := by
    rw [show us'.length + 1 = (u0 :: us').length from rfl, List.drop_left,
      List.take_left, tryWsName_one ns hn0 hnn hnh]
    rfl
  rw [tryLens_first _ us'.length _ hstep]

theorem tryAfterQty_unit (us ns : List Char) (hu0 : us ≠ [])
    (hua : ∀ c ∈ us, isAlphaCh c = true) (hn0 : ns ≠ []) (hnn : '\n' ∉ ns)
    (hnh : ∀ c, ns.head? = some c → isSpaceCh c = false) :
    tryAfterQty (' ' :: (us ++ ' ' :: ns)) = some (some us, ns) := by
  unfold tryAfterQty
  have h0 : runLen isSpaceCh (us ++ ' ' :: ns) = 0 := by
    apply runLen_zero
    intro c hc
    obtain ⟨u0, us', rfl⟩ := List.exists_cons_of_ne_nil hu0
    simp only [List.cons_append, List.head?_cons, Option.some.injEq] at hc
    subst hc
    exact alpha_not_space u0 (hua u0 (List.mem_cons_self u0 us'))
  rw [runLen_cons_pos isSpaceCh ' ' _ (by decide) h0]
  apply tryKs_first
  show tryUnitName ((' ' :: (us ++ ' ' :: ns)).drop 1) = some (some us, ns)
  rw [List.drop_one, List.tail_cons]
  exact tryUnitName_unit us ns hu0 hua hn0 hnn hnh

theorem qtyCands_space_nodigit (rest : List Char)
    (h0 : runLen isDigitCh rest = 0) :
    qtySuffixCands (' ' :: rest) = [([], ' ' :: rest)] := by
  simp [qtySuffixCands, h0]

theorem qtyCands_dot (b tail : List Char) (hb0 : b ≠ [])
    (hb : ∀ c ∈ b, isDigitCh c = true)
    (hth : ∀ c, tail.head? = some c → isDigitCh c = false) :
    ∃ crest, qtySuffixCands ('.' :: (b ++ tail)) = ('.' :: b, tail) :: crest := by
  obtain ⟨b0, b', rfl⟩ := List.exists_cons_of_ne_nil hb0
  have hrl : runLen isDigitCh ((b0 :: b') ++ tail) = (b0 :: b').length :=
    runLen_append _ _ _ hb hth
  apply Exists.intro
  simp only [qtySuffixCands, hrl]
  simp [descLens, List.take_left, List.drop_left]
  rfl

theorem qtyCands_slash (b tail : List Char) (hb0 : b ≠ [])
    (hb : ∀ c ∈ b, isDigitCh c = true)
    (hth : ∀ c, tail.head? = some c → isDigitCh c = false) :
    ∃ crest, qtySuffixCands ('/' :: (b ++ tail)) = ('/' :: b, tail) :: crest := by
  obtain ⟨b0, b', rfl⟩ := List.exists_cons_of_ne_nil hb0
  have hrl : runLen isDigitCh ((b0 :: b') ++ tail) = (b0 :: b').length :=
    runLen_append _ _ _ hb hth
  apply Exists.intro
  simp only [qtySuffixCands, hrl]
  simp [descLens, List.take_left, List.drop_left]
  rfl

theorem qtyCands_mixed (b cc tail : List Char) (hb0 : b ≠ [])
    (hb : ∀ c ∈ b, isDigitCh c = true) (hc0 : cc ≠ [])
    (hc : ∀ c ∈ cc, isDigitCh c = true)
    (hth : ∀ c, tail.head? = some c → isDigitCh c = false) :
    ∃ crest, qtySuffixCands (' ' :: (b ++ '/' :: (cc ++ tail))) =
      (' ' :: (b ++ '/' :: cc), tail) :: crest := by
  obtain ⟨b0, b', rfl⟩ := List.exists_cons_of_ne_nil hb0
  obtain ⟨c0, cc', rfl⟩ := List.exists_cons_of_ne_nil hc0
  have hrl1 : runLen isDigitCh ((b0 :: b') ++ '/' :: ((c0 :: cc') ++ tail))
      = (b0 :: b').length :=
    runLen_append _ _ _ hb
      (by intro c hcx
          simp only [List.head?_cons, Option.some.injEq] at hcx
          subst hcx
          decide)
  have hrl2 : runLen isDigitCh (c0 :: (cc' ++ tail)) = cc'.length + 1 := by
    simpa using runLen_append isDigitCh (c0 :: cc') tail hc hth
  apply Exists.intro
  simp only [qtySuffixCands, hrl1]
  simp [hrl2, descLens, List.take_left, List.drop_left]
  rfl

theorem ingMatch_int (ds us ns : List Char)
    (hd0 : ds ≠ []) (hd : ∀ c ∈ ds, isDigitCh c = true)
    (hu0 : us ≠ []) (hua : ∀ c ∈ us, isAlphaCh c = true)
    (hn0 : ns ≠ []) (hnn : '\n' ∉ ns)
    (hnh : ∀ c, ns.head? = some c → isSpaceCh c = false) :
    ingMatch (ds ++ ' ' :: (us ++ ' ' :: ns)) = some ⟨some ds, some us, ns⟩ := by
  obtain ⟨d0, ds', rfl⟩ := List.exists_cons_of_ne_nil hd0
  have hafter : tryAfterQty (' ' :: (us ++ ' ' :: ns)) = some (some us, ns) :=
    tryAfterQty_unit us ns hu0 hua hn0 hnn hnh
  unfold ingMatch
  have hws : runLen isSpaceCh ((d0 :: ds') ++ ' ' :: (us ++ ' ' :: ns)) = 0 := by
    apply runLen_zero
    intro c hc
    simp only [List.cons_append, List.head?_cons, Option.some.injEq] at hc
    subst hc
    exact digit_not_space d0 (hd d0 (List.mem_cons_self d0 ds'))
  rw [hws]
  show tryQtyAt (((d0 :: ds') ++ ' ' :: (us ++ ' ' :: ns)).drop 0) =
    some ⟨some (d0 :: ds'), some us, ns⟩
  rw [List.drop_zero]
  unfold tryQtyAt
  have hdl : runLen isDigitCh ((d0 :: ds') ++ ' ' :: (us ++ ' ' :: ns))
      = ds'.length + 1 := by
    simpa using runLen_append isDigitCh (d0 :: ds') (' ' :: (us ++ ' ' :: ns)) hd
      (by intro c hc
          simp only [List.head?_cons, Option.some.injEq] at hc
          subst hc
          decide)
  rw [hdl]
  have hstep : firstSome (fun sc => (tryAfterQty sc.2).map
        (fun un => IngGroups.mk (some ((((d0 :: ds') ++ ' ' :: (us ++ ' ' :: ns)).take
          (ds'.length + 1)) ++ sc.1)) un.1 un.2))
      (qtySuffixCands (((d0 :: ds') ++ ' ' :: (us ++ ' ' :: ns)).drop (ds'.length + 1)))
      = some (IngGroups.mk (some (d0 :: ds')) (some us) ns) := by
    rw [show ds'.length + 1 = (d0 :: ds').length from rfl, List.take_left, List.drop_left]
    have h0 : runLen isDigitCh (us ++ ' ' :: ns) = 0 := by
      apply runLen_zero
      intro c hc
      obtain ⟨u0, us', rfl⟩ := List.exists_cons_of_ne_nil hu0
      simp only [List.cons_append, List.head?_cons, Option.some.injEq] at hc
      subst hc
      exact alpha_not_digit u0 (hua u0 (List.mem_cons_self u0 us'))
    rw [qtyCands_space_nodigit _ h0]
    simp [firstSome, hafter]
  rw [tryLens_first _ ds'.length _ hstep]

theorem ingMatch_dec (a b us ns : List Char)
    (ha0 : a ≠ []) (ha : ∀ c ∈ a, isDigitCh c = true)
    (hb0 : b ≠ []) (hb : ∀ c ∈ b, isDigitCh c = true)
    (hu0 : us ≠ []) (hua : ∀ c ∈ us, isAlphaCh c = true)
    (hn0 : ns ≠ []) (hnn : '\n' ∉ ns)
    (hnh : ∀ c, ns.head? = some c → isSpaceCh c = false) :
    ingMatch (a ++ '.' :: (b ++ ' ' :: (us ++ ' ' :: ns))) =
      some ⟨some (a ++ '.' :: b), some us, ns⟩ := by
  obtain ⟨a0, a', rfl⟩ := List.exists_cons_of_ne_nil ha0
  have hafter : tryAfterQty (' ' :: (us ++ ' ' :: ns)) = some (some us, ns) :=
    tryAfterQty_unit us ns hu0 hua hn0 hnn hnh
  unfold ingMatch
  have hws : runLen isSpaceCh ((a0 :: a') ++ '.' :: (b ++ ' ' :: (us ++ ' ' :: ns)))
      = 0 := by
    apply runLen_zero
    intro c hc
    simp only [List.cons_append, List.head?_cons, Option.some.injEq] at hc
    subst hc
    exact digit_not_space a0 (ha a0 (List.mem_cons_self a0 a'))
  rw [hws]
  show tryQtyAt (((a0 :: a') ++ '.' :: (b ++ ' ' :: (us ++ ' ' :: ns))).drop 0) =
    some ⟨some ((a0 :: a') ++ '.' :: b), some us, ns⟩
  rw [List.drop_zero]
  unfold tryQtyAt
  have hdl : runLen isDigitCh ((a0 :: a') ++ '.' :: (b ++ ' ' :: (us ++ ' ' :: ns)))
      = a'.length + 1 := by
    simpa using runLen_append isDigitCh (a0 :: a')
      ('.' :: (b ++ ' ' :: (us ++ ' ' :: ns))) ha
      (by intro c hc
          simp only [List.head?_cons, Option.some.injEq] at hc
          subst hc
          decide)
  rw [hdl]
  have hstep : firstSome (fun sc => (tryAfterQty sc.2).map
        (fun un => IngGroups.mk (some ((((a0 :: a') ++ '.' ::
          (b ++ ' ' :: (us ++ ' ' :: ns))).take (a'.length + 1)) ++ sc.1)) un.1 un.2))
      (qtySuffixCands (((a0 :: a') ++ '.' ::
        (b ++ ' ' :: (us ++ ' ' :: ns))).drop (a'.length + 1)))
      = some (IngGroups.mk (some ((a0 :: a') ++ '.' :: b)) (some us) ns) := by
    rw [show a'.length + 1 = (a0 :: a').length from rfl, List.take_left, List.drop_left]
    obtain ⟨crest, hc⟩ := qtyCands_dot b (' ' :: (us ++ ' ' :: ns)) hb0 hb
      (by intro c hc
          simp only [List.head?_cons, Option.some.injEq] at hc
          subst hc
          decide)
    rw [hc]
    apply firstSome_cons_some
    simp [hafter]
  rw [tryLens_first _ a'.length _ hstep]

theorem ingMatch_frac (a b us ns : List Char)
    (ha0 : a ≠ []) (ha : ∀ c ∈ a, isDigitCh c = true)
    (hb0 : b ≠ []) (hb : ∀ c ∈ b, isDigitCh c = true)
    (hu0 : us ≠ []) (hua : ∀ c ∈ us, isAlphaCh c = true)
    (hn0 : ns ≠ []) (hnn : '\n' ∉ ns)
    (hnh : ∀ c, ns.head? = some c → isSpaceCh c = false) :
    ingMatch (a ++ '/' :: (b ++ ' ' :: (us ++ ' ' :: ns))) =
      some ⟨some (a ++ '/' :: b), some us, ns⟩ := by
  obtain ⟨a0, a', rfl⟩ := List.exists_cons_of_ne_nil ha0
  have hafter : tryAfterQty (' ' :: (us ++ ' ' :: ns)) = some (some us, ns) :=
    tryAfterQty_unit us ns hu0 hua hn0 hnn hnh
  unfold ingMatch
  have hws : runLen isSpaceCh ((a0 :: a') ++ '/' :: (b ++ ' ' :: (us ++ ' ' :: ns)))
      = 0 := by
    apply runLen_zero
    intro c hc
    simp only [List.cons_append, List.head?_cons, Option.some.injEq] at hc
    subst hc
    exact digit_not_space a0 (ha a0 (List.mem_cons_self a0 a'))
  rw [hws]
  show tryQtyAt (((a0 :: a') ++ '/' :: (b ++ ' ' :: (us ++ ' ' :: ns))).drop 0) =
    some ⟨some ((a0 :: a') ++ '/' :: b), some us, ns⟩
  rw [List.drop_zero]
  unfold tryQtyAt
  have hdl : runLen isDigitCh ((a0 :: a') ++ '/' :: (b ++ ' ' :: (us ++ ' ' :: ns)))
      = a'.length + 1 := by
    simpa using runLen_append isDigitCh (a0 :: a')
      ('/' :: (b ++ ' ' :: (us ++ ' ' :: ns))) ha
      (by intro c hc
          simp only [List.head?_cons, Option.some.injEq] at hc
          subst hc
          decide)
  rw [hdl]
  have hstep : firstSome (fun sc => (tryAfterQty sc.2).map
        (fun un => IngGroups.mk (some ((((a0 :: a') ++ '/' ::
          (b ++ ' ' :: (us ++ ' ' :: ns))).take (a'.length + 1)) ++ sc.1)) un.1 un.2))
      (qtySuffixCands (((a0 :: a') ++ '/' ::
        (b ++ ' ' :: (us ++ ' ' :: ns))).drop (a'.length + 1)))
      = some (IngGroups.mk (some ((a0 :: a') ++ '/' :: b)) (some us) ns) := by
    rw [show a'.length + 1 = (a0 :: a').length from rfl, List.take_left, List.drop_left]
    obtain ⟨crest, hc⟩ := qtyCands_slash b (' ' :: (us ++ ' ' :: ns)) hb0 hb
      (by intro c hc
          simp only [List.head?_cons, Option.some.injEq] at hc
          subst hc
          decide)
    rw [hc]
    apply firstSome_cons_some
    simp [hafter]
  rw [tryLens_first _ a'.length _ hstep]

theorem ingMatch_mixed (a b cc us ns : List Char)
    (ha0 : a ≠ []) (ha : ∀ c ∈ a, isDigitCh c = true)
    (hb0 : b ≠ []) (hb : ∀ c ∈ b, isDigitCh c = true)
    (hc0 : cc ≠ []) (hcd : ∀ c ∈ cc, isDigitCh c = true)
    (hu0 : us ≠ []) (hua : ∀ c ∈ us, isAlphaCh c = true)
    (hn0 : ns ≠ []) (hnn : '\n' ∉ ns)
    (hnh : ∀ c, ns.head? = some c → isSpaceCh c = false) :
    ingMatch (a ++ ' ' :: (b ++ '/' :: (cc ++ ' ' :: (us ++ ' ' :: ns)))) =
      some ⟨some (a ++ ' ' :: (b ++ '/' :: cc)), some us, ns⟩ := by
  obtain ⟨a0, a', rfl⟩ := List.exists_cons_of_ne_nil ha0
  have hafter : tryAfterQty (' ' :: (us ++ ' ' :: ns)) = some (some us, ns) :=
    tryAfterQty_unit us ns hu0 hua hn0 hnn hnh
  unfold ingMatch
  have hws : runLen isSpaceCh
      ((a0 :: a') ++ ' ' :: (b ++ '/' :: (cc ++ ' ' :: (us ++ ' ' :: ns)))) = 0 := by
    apply runLen_zero
    intro c hc
    simp only [List.cons_append, List.head?_cons, Option.some.injEq] at hc
    subst hc
    exact digit_not_space a0 (ha a0 (List.mem_cons_self a0 a'))
  rw [hws]
  show tryQtyAt (((a0 :: a') ++ ' ' ::
      (b ++ '/' :: (cc ++ ' ' :: (us ++ ' ' :: ns)))).drop 0) =
    some ⟨some ((a0 :: a') ++ ' ' :: (b ++ '/' :: cc)), some us, ns⟩
  rw [List.drop_zero]
  unfold tryQtyAt
  have hdl : runLen isDigitCh
      ((a0 :: a') ++ ' ' :: (b ++ '/' :: (cc ++ ' ' :: (us ++ ' ' :: ns))))
      = a'.length + 1 := by
    simpa using runLen_append isDigitCh (a0 :: a')
      (' ' :: (b ++ '/' :: (cc ++ ' ' :: (us ++ ' ' :: ns)))) ha
      (by intro c hc
          simp only [List.head?_cons, Option.some.injEq] at hc
          subst hc
          decide)
  rw [hdl]
  have hstep : firstSome (fun sc => (tryAfterQty sc.2).map
        (fun un => IngGroups.mk (some ((((a0 :: a') ++ ' ' ::
          (b ++ '/' :: (cc ++ ' ' :: (us ++ ' ' :: ns)))).take (a'.length + 1)) ++ sc.1))
          un.1 un.2))
      (qtySuffixCands (((a0 :: a') ++ ' ' ::
        (b ++ '/' :: (cc ++ ' ' :: (us ++ ' ' :: ns)))).drop (a'.length + 1)))
      = some (IngGroups.mk (some ((a0 :: a') ++ ' ' :: (b ++ '/' :: cc)))
          (some us) ns) := by
    rw [show a'.length + 1 = (a0 :: a').length from rfl, List.take_left, List.drop_left]
    obtain ⟨crest, hc⟩ := qtyCands_mixed b cc (' ' :: (us ++ ' ' :: ns)) hb0 hb hc0 hcd
      (by intro c hc
          simp only [List.head?_cons, Option.some.injEq] at hc
          subst hc
          decide)
    rw [hc]
    apply firstSome_cons_some
    simp [hafter]
  rw [tryLens_first _ a'.length _ hstep]

theorem mem_of_head?_eq {l : List Char} {c : Char} (h : l.head? = some c) : c ∈ l :=
  List.mem_of_mem_head? (by simp [h])

theorem mem_of_getLast?_eq {l : List Char} {c : Char} (h : l.getLast? = some c) :
    c ∈ l := by
  have h2 : l.reverse.head? = some c := by rw [List.head?_reverse]; exact h
  exact List.mem_reverse.mp (mem_of_head?_eq h2)

theorem pyStripChars_digits (a : List Char)
    (ha : ∀ c ∈ a, isDigitCh c = true) : pyStripChars a = a := by
  apply pyStripChars_id
  · exact fun c hc => digit_not_space c (ha c (mem_of_head?_eq hc))
  · exact fun c hc => digit_not_space c (ha c (mem_of_getLast?_eq hc))

theorem decimalLit_int (ds : List Char) (h0 : ds ≠ [])
    (hd : ∀ c ∈ ds, isDigitCh c = true) :
    decimalLit ds = some ((natOfDigits ds : ℚ)) := by
  have ht := takeWhile_of_all hd
  simp only [decimalLit, ht.1, ht.2]
  simp [h0, show natOfDigits ([] : List Char) = 0 from rfl]

theorem decimalLit_dec (a b : List Char) (ha0 : a ≠ []) (hb0 : b ≠ [])
    (ha : ∀ c ∈ a, isDigitCh c = true) (hb : ∀ c ∈ b, isDigitCh c = true) :
    decimalLit (a ++ '.' :: b) = some ((natOfDigits a : ℚ) +
      (natOfDigits b : ℚ) / 10 ^ b.length) := by
  have hsp := takeWhile_append_eq isDigitCh a ('.' :: b) ha
    (by intro c hc
        simp only [List.head?_cons, Option.some.injEq] at hc
        subst hc
        decide)
  have htb := takeWhile_of_all hb
  simp only [decimalLit, hsp.1, hsp.2, List.head?_cons, List.tail_cons, htb.1, htb.2]
  simp [ha0, htb.1, htb.2]

theorem pyFloat_int (ds : List Char) (h0 : ds ≠ [])
    (hd : ∀ c ∈ ds, isDigitCh c = true) :
    pyFloat (String.mk ds) = some ((natOfDigits ds : ℚ)) := by
  obtain ⟨d0, ds', rfl⟩ := List.exists_cons_of_ne_nil h0
  have hts : (String.mk (d0 :: ds')).toList = d0 :: ds' := rfl
  have hid := pyStripChars_digits (d0 :: ds') hd
  have hd0 : isDigitCh d0 = true := hd d0 (List.mem_cons_self d0 ds')
  simp only [pyFloat, hts, hid]
  rw [if_neg (c := (d0 :: ds').head? = some '+') (by
      simp only [List.head?_cons, Option.some.injEq]
      intro he
      rw [he] at hd0
      exact absurd hd0 (by decide)),
    if_neg (c := (d0 :: ds').head? = some '-') (by
      simp only [List.head?_cons, Option.some.injEq]
      intro he
      rw [he] at hd0
      exact absurd hd0 (by decide))]
  exact decimalLit_int (d0 :: ds') (by simp) hd

theorem pyFloat_dec (a b : List Char) (ha0 : a ≠ []) (hb0 : b ≠ [])
    (ha : ∀ c ∈ a, isDigitCh c = true) (hb : ∀ c ∈ b, isDigitCh c = true) :
    pyFloat (String.mk (a ++ '.' :: b)) = some ((natOfDigits a : ℚ) +
      (natOfDigits b : ℚ) / 10 ^ b.length) := by
  obtain ⟨a0, a', rfl⟩ := List.exists_cons_of_ne_nil ha0
  have hts : (String.mk ((a0 :: a') ++ '.' :: b)).toList = (a0 :: a') ++ '.' :: b := rfl
  have ha0d : isDigitCh a0 = true := ha a0 (List.mem_cons_self a0 a')
  have hid : pyStripChars ((a0 :: a') ++ '.' :: b) = (a0 :: a') ++ '.' :: b := by
    apply pyStripChars_id
    · intro c hc
      simp only [List.cons_append, List.head?_cons, Option.some.injEq] at hc
      subst hc
      exact digit_not_space a0 ha0d
    · intro c hc
      exact digit_not_space c (getLast?_digit_tail (a0 :: a') '.' b hb0 hb c hc)
  simp only [pyFloat, hts, hid]
  rw [if_neg (c := ((a0 :: a') ++ '.' :: b).head? = some '+') (by
      simp only [List.cons_append, List.head?_cons, Option.some.injEq]
      intro he
      rw [he] at ha0d
      exact absurd ha0d (by decide)),
    if_neg (c := ((a0 :: a') ++ '.' :: b).head? = some '-') (by
      simp only [List.cons_append, List.head?_cons, Option.some.injEq]
      intro he
      rw [he] at ha0d
      exact absurd ha0d (by decide))]
  exact decimalLit_dec (a0 :: a') b (by simp) hb0 ha hb

theorem pyInt_digits (a : List Char) (ha0 : a ≠ [])
    (ha : ∀ c ∈ a, isDigitCh c = true) :
    pyInt (String.mk a) = some (Int.ofNat (natOfDigits a)) := by
  obtain ⟨a0, a', rfl⟩ := List.exists_cons_of_ne_nil ha0
  have hts : (String.mk (a0 :: a')).toList = a0 :: a' := rfl
  have hid := pyStripChars_digits (a0 :: a') ha
  have ha0d : isDigitCh a0 = true := ha a0 (List.mem_cons_self a0 a')
  simp only [pyInt, hts, hid]
  rw [if_neg (c := (a0 :: a').head? = some '+') (by
      simp only [List.head?_cons, Option.some.injEq]
      intro he
      rw [he] at ha0d
      exact absurd ha0d (by decide)),
    if_neg (c := (a0 :: a').head? = some '-') (by
      simp only [List.head?_cons, Option.some.injEq]
      intro he
      rw [he] at ha0d
      exact absurd ha0d (by decide))]
  simp [parseNatQ, List.all_eq_true.mpr ha]

theorem pyFraction_slash (b cc : List Char) (hb0 : b ≠ []) (hc0 : cc ≠ [])
    (hb : ∀ c ∈ b, isDigitCh c = true) (hcd : ∀ c ∈ cc, isDigitCh c = true)
    (hcz : natOfDigits cc ≠ 0) :
    pyFraction (String.mk (b ++ '/' :: cc)) =
      some ((natOfDigits b : ℚ) / (natOfDigits cc : ℚ)) := by
  obtain ⟨b0, b', rfl⟩ := List.exists_cons_of_ne_nil hb0
  have hts : (String.mk ((b0 :: b') ++ '/' :: cc)).toList = (b0 :: b') ++ '/' :: cc := rfl
  have hb0d : isDigitCh b0 = true := hb b0 (List.mem_cons_self b0 b')
  have hid : pyStripChars ((b0 :: b') ++ '/' :: cc) = (b0 :: b') ++ '/' :: cc := by
    apply pyStripChars_id
    · intro c hc
      simp only [List.cons_append, List.head?_cons, Option.some.injEq] at hc
      subst hc
      exact digit_not_space b0 hb0d
    · intro c hc
      exact digit_not_space c (getLast?_digit_tail (b0 :: b') '/' cc hc0 hcd c hc)
  simp only [pyFraction, hts, hid]
  rw [if_neg (c := ((b0 :: b') ++ '/' :: cc).head? = some '+') (by
      simp only [List.cons_append, List.head?_cons, Option.some.injEq]
      intro he
      rw [he] at hb0d
      exact absurd hb0d (by decide)),
    if_neg (c := ((b0 :: b') ++ '/' :: cc).head? = some '-') (by
      simp only [List.cons_append, List.head?_cons, Option.some.injEq]
      intro he
      rw [he] at hb0d
      exact absurd hb0d (by decide))]
  have hsp2 := takeWhile_append_eq isDigitCh (b0 :: b') ('/' :: cc) hb
    (by intro c hc
        simp only [List.head?_cons, Option.some.injEq] at hc
        subst hc
        decide)
  simp only [fractionCore, hsp2.1, hsp2.2]
  simp [hc0, hcz, List.all_eq_true.mpr hcd]

theorem pq_int (ds : List Char) (h0 : ds ≠ [])
    (hd : ∀ c ∈ ds, isDigitCh c = true) :
    parse_quantity (String.mk ds) = some ((natOfDigits ds : ℚ)) := by
  have hts : (String.mk ds).toList = ds := rfl
  have hid := pyStripChars_digits ds hd
  have hsp : ' ' ∉ ds := fun hm => absurd (hd ' ' hm) (by decide)
  have hsl : '/' ∉ ds := fun hm => absurd (hd '/' hm) (by decide)
  simp only [parse_quantity, hts, hid]
  rw [if_neg (mk_ne_empty ds h0),
    if_neg (c := (' ' ∈ ds) ∧ ('/' ∈ ds)) (fun hand => hsp hand.1),
    if_neg (c := '/' ∈ ds) hsl]
  exact pyFloat_int ds h0 hd

theorem pq_dec (a b : List Char) (ha0 : a ≠ []) (hb0 : b ≠ [])
    (ha : ∀ c ∈ a, isDigitCh c = true) (hb : ∀ c ∈ b, isDigitCh c = true) :
    parse_quantity (String.mk (a ++ '.' :: b)) = some ((natOfDigits a : ℚ) +
      (natOfDigits b : ℚ) / 10 ^ b.length) := by
  have hts : (String.mk (a ++ '.' :: b)).toList = a ++ '.' :: b := rfl
  obtain ⟨a0, a', rfl⟩ := List.exists_cons_of_ne_nil ha0
  have ha0d : isDigitCh a0 = true := ha a0 (List.mem_cons_self a0 a')
  have hid : pyStripChars ((a0 :: a') ++ '.' :: b) = (a0 :: a') ++ '.' :: b := by
    apply pyStripChars_id
    · intro c hc
      simp only [List.cons_append, List.head?_cons, Option.some.injEq] at hc
      subst hc
      exact digit_not_space a0 ha0d
    · intro c hc
      exact digit_not_space c (getLast?_digit_tail (a0 :: a') '.' b hb0 hb c hc)
  have hsp : ' ' ∉ (a0 :: a') ++ '.' :: b := by
    intro hm
    rcases List.mem_append.mp hm with h | h
    · exact absurd (ha ' ' h) (by decide)
    · rcases List.mem_cons.mp h with h | h
      · exact absurd h (by decide)
      · exact absurd (hb ' ' h) (by decide)
  have hsl : '/' ∉ (a0 :: a') ++ '.' :: b := by
    intro hm
    rcases List.mem_append.mp hm with h | h
    · exact absurd (ha '/' h) (by decide)
    · rcases List.mem_cons.mp h with h | h
      · exact absurd h (by decide)
      · exact absurd (hb '/' h) (by decide)
  simp only [parse_quantity, hts, hid]
  rw [if_neg (mk_ne_empty _ (by simp)),
    if_neg (c := (' ' ∈ (a0 :: a') ++ '.' :: b) ∧ ('/' ∈ (a0 :: a') ++ '.' :: b))
      (fun hand => hsp hand.1),
    if_neg (c := '/' ∈ (a0 :: a') ++ '.' :: b) hsl]
  exact pyFloat_dec (a0 :: a') b (by simp) hb0 ha hb

theorem pq_frac (a b : List Char) (ha0 : a ≠ []) (hb0 : b ≠ [])
    (ha : ∀ c ∈ a, isDigitCh c = true) (hb : ∀ c ∈ b, isDigitCh c = true)
    (hbz : natOfDigits b ≠ 0) :
    parse_quantity (String.mk (a ++ '/' :: b)) =
      some ((natOfDigits a : ℚ) / (natOfDigits b : ℚ)) := by
  have hts : (String.mk (a ++ '/' :: b)).toList = a ++ '/' :: b := rfl
  obtain ⟨a0, a', rfl⟩ := List.exists_cons_of_ne_nil ha0
  have ha0d : isDigitCh a0 = true := ha a0 (List.mem_cons_self a0 a')
  have hid : pyStripChars ((a0 :: a') ++ '/' :: b) = (a0 :: a') ++ '/' :: b := by
    apply pyStripChars_id
    · intro c hc
      simp only [List.cons_append, List.head?_cons, Option.some.injEq] at hc
      subst hc
      exact digit_not_space a0 ha0d
    · intro c hc
      exact digit_not_space c (getLast?_digit_tail (a0 :: a') '/' b hb0 hb c hc)
  have hsp : ' ' ∉ (a0 :: a') ++ '/' :: b := by
    intro hm
    rcases List.mem_append.mp hm with h | h
    · exact absurd (ha ' ' h) (by decide)
    · rcases List.mem_cons.mp h with h | h
      · exact absurd h (by decide)
      · exact absurd (hb ' ' h) (by decide)
  have hslash : '/' ∈ (a0 :: a') ++ '/' :: b :=
    List.mem_append.mpr (Or.inr (List.mem_cons_self '/' b))
  simp only [parse_quantity, hts, hid]
  rw [if_neg (mk_ne_empty _ (by simp)),
    if_neg (c := (' ' ∈ (a0 :: a') ++ '/' :: b) ∧ ('/' ∈ (a0 :: a') ++ '/' :: b))
      (fun hand => hsp hand.1),
    if_pos (c := '/' ∈ (a0 :: a') ++ '/' :: b) hslash]
  exact pyFraction_slash (a0 :: a') b (by simp) hb0 ha hb hbz

theorem pq_mixed (a b cc : List Char) (ha0 : a ≠ []) (hb0 : b ≠ []) (hc0 : cc ≠ [])
    (ha : ∀ c ∈ a, isDigitCh c = true) (hb : ∀ c ∈ b, isDigitCh c = true)
    (hcd : ∀ c ∈ cc, isDigitCh c = true) (hcz : natOfDigits cc ≠ 0) :
    parse_quantity (String.mk (a ++ ' ' :: (b ++ '/' :: cc))) =
      some ((natOfDigits a : ℚ) + (natOfDigits b : ℚ) / (natOfDigits cc : ℚ)) := by
  have hts : (String.mk (a ++ ' ' :: (b ++ '/' :: cc))).toList
      = a ++ ' ' :: (b ++ '/' :: cc) := rfl
  obtain ⟨a0, a', rfl⟩ := List.exists_cons_of_ne_nil ha0
  have ha0d : isDigitCh a0 = true := ha a0 (List.mem_cons_self a0 a')
  have hsh : (a0 :: a') ++ ' ' :: (b ++ '/' :: cc)
      = ((a0 :: a') ++ ' ' :: b) ++ '/' :: cc := by simp
  have hid : pyStripChars ((a0 :: a') ++ ' ' :: (b ++ '/' :: cc))
      = (a0 :: a') ++ ' ' :: (b ++ '/' :: cc) := by
    apply pyStripChars_id
    · intro c hc
      simp only [List.cons_append, List.head?_cons, Option.some.injEq] at hc
      subst hc
      exact digit_not_space a0 ha0d
    · intro c hc
      rw [hsh] at hc
      exact digit_not_space c
        (getLast?_digit_tail ((a0 :: a') ++ ' ' :: b) '/' cc hc0 hcd c hc)
  have hspm : ' ' ∈ (a0 :: a') ++ ' ' :: (b ++ '/' :: cc) :=
    List.mem_append.mpr (Or.inr (List.mem_cons_self ' ' _))
  have hslm : '/' ∈ (a0 :: a') ++ ' ' :: (b ++ '/' :: cc) :=
    List.mem_append.mpr (Or.inr (List.mem_cons.mpr (Or.inr
      (List.mem_append.mpr (Or.inr (List.mem_cons_self '/' cc))))))
  have hwtk := takeWhile_append_eq (fun c => decide (c ≠ ' ')) (a0 :: a')
    (' ' :: (b ++ '/' :: cc))
    (by intro c hc
        simp only [decide_eq_true_eq]
        exact ne_of_class c ' ' isDigitCh (ha c hc) (by decide))
    (by intro c hc
        simp only [List.head?_cons, Option.some.injEq] at hc
        subst hc
        decide)
  simp only [parse_quantity, hts, hid]
  rw [if_neg (mk_ne_empty _ (by simp)),
    if_pos (c := (' ' ∈ (a0 :: a') ++ ' ' :: (b ++ '/' :: cc)) ∧
      ('/' ∈ (a0 :: a') ++ ' ' :: (b ++ '/' :: cc))) ⟨hspm, hslm⟩]
  rw [hwtk.1, hwtk.2, List.tail_cons]
  rw [pyInt_digits (a0 :: a') (by simp) ha,
    pyFraction_slash b cc hb0 hc0 hb hcd hcz]
  simp

/-- C3 (amended): for every quantity of integer, decimal, simple-fraction or
mixed-number shape, every *dot-free* key of `UNIT_MAP`, and every name that is
nonempty, newline-free and does not start with whitespace,
`parse_ingredient "<qty> <unit> <name>"` returns the exact numeric value of
the quantity (fractions evaluated), the normalized unit synonym, and the
trimmed name.  The restriction to dot-free keys is necessary: `UNIT_MAP` also
has the key `"tbsp."`, on which the claimed behaviour fails (see the
counterexample). -/
theorem claim_C3 : ∀ (q : QtyForm) (us ns : List Char),
    q.wfb = true →
    (String.mk us) ∈ UNIT_MAP.map Prod.fst → '.' ∉ us →
    ns ≠ [] → '\n' ∉ ns →
    (ns.head?.all (fun c => !isSpaceCh c) = true) →
    parse_ingredient (String.mk (q.chars ++ ' ' :: (us ++ ' ' :: ns))) =
      ⟨String.mk (q.chars ++ ' ' :: (us ++ ' ' :: ns)), some q.value,
        some (unitMapGet (String.mk us)), String.mk (pyStripChars ns)⟩ := by
  intro q us ns hwf hmem hdot hn0 hnn hnh0
  have hnh : ∀ c, ns.head? = some c → isSpaceCh c = false := by
    intro c hc
    rw [hc] at hnh0
    simpa using hnh0
  obtain ⟨hnorm, hu0, hua⟩ := normalize_unit_key us hmem hdot
  cases q with
  | intQ ds =>
    simp only [QtyForm.wfb, Bool.and_eq_true, Bool.not_eq_true',
      List.isEmpty_eq_false, List.all_eq_true] at hwf
    obtain ⟨hds0, hdd⟩ := hwf
    simp only [QtyForm.chars, QtyForm.value]
    have hm := ingMatch_int ds us ns hds0 hdd hu0 hua hn0 hnn hnh
    unfold parse_ingredient
    rw [show (String.mk (ds ++ ' ' :: (us ++ ' ' :: ns))).toList
        = ds ++ ' ' :: (us ++ ' ' :: ns) from rfl, hm]
    show Ingredient.mk (String.mk (ds ++ ' ' :: (us ++ ' ' :: ns)))
        (parse_quantity (String.mk ds)) (normalize_unit (some (String.mk us)))
        (pyStrip (String.mk ns)) = _
    rw [pq_int ds hds0 hdd, hnorm]
    rfl
  | decQ a b =>
    simp only [QtyForm.wfb, Bool.and_eq_true, Bool.not_eq_true',
      List.isEmpty_eq_false, List.all_eq_true] at hwf
    obtain ⟨⟨⟨ha0, hb0⟩, ha⟩, hb⟩ := hwf
    simp only [QtyForm.chars, QtyForm.value]
    have hassoc : (a ++ '.' :: b) ++ ' ' :: (us ++ ' ' :: ns)
        = a ++ '.' :: (b ++ ' ' :: (us ++ ' ' :: ns)) := by simp
    rw [hassoc]
    have hm := ingMatch_dec a b us ns ha0 ha hb0 hb hu0 hua hn0 hnn hnh
    unfold parse_ingredient
    rw [show (String.mk (a ++ '.' :: (b ++ ' ' :: (us ++ ' ' :: ns)))).toList
        = a ++ '.' :: (b ++ ' ' :: (us ++ ' ' :: ns)) from rfl, hm]
    show Ingredient.mk (String.mk (a ++ '.' :: (b ++ ' ' :: (us ++ ' ' :: ns))))
        (parse_quantity (String.mk (a ++ '.' :: b)))
        (normalize_unit (some (String.mk us))) (pyStrip (String.mk ns)) = _
    rw [pq_dec a b ha0 hb0 ha hb, hnorm]
    rfl
  | fracQ a b =>
    simp only [QtyForm.wfb, Bool.and_eq_true, Bool.not_eq_true',
      List.isEmpty_eq_false, List.all_eq_true, decide_eq_true_eq] at hwf
    obtain ⟨⟨⟨⟨ha0, hb0⟩, ha⟩, hb⟩, hbz⟩ := hwf
    simp only [QtyForm.chars, QtyForm.value]
    have hassoc : (a ++ '/' :: b) ++ ' ' :: (us ++ ' ' :: ns)
        = a ++ '/' :: (b ++ ' ' :: (us ++ ' ' :: ns)) := by simp
    rw [hassoc]
    have hm := ingMatch_frac a b us ns ha0 ha hb0 hb hu0 hua hn0 hnn hnh
    unfold parse_ingredient
    rw [show (String.mk (a ++ '/' :: (b ++ ' ' :: (us ++ ' ' :: ns)))).toList
        = a ++ '/' :: (b ++ ' ' :: (us ++ ' ' :: ns)) from rfl, hm]
    show Ingredient.mk (String.mk (a ++ '/' :: (b ++ ' ' :: (us ++ ' ' :: ns))))
        (parse_quantity (String.mk (a ++ '/' :: b)))
        (normalize_unit (some (String.mk us))) (pyStrip (String.mk ns)) = _
    rw [pq_frac a b ha0 hb0 ha hb hbz, hnorm]
    rfl
  | mixedQ a b cc =>
    simp only [QtyForm.wfb, Bool.and_eq_true, Bool.not_eq_true',
      List.isEmpty_eq_false, List.all_eq_true, decide_eq_true_eq] at hwf
    obtain ⟨⟨⟨⟨⟨⟨ha0, hb0⟩, hc0⟩, ha⟩, hb⟩, hcd⟩, hcz⟩ := hwf
    simp only [QtyForm.chars, QtyForm.value]
    have hm := ingMatch_mixed a b cc us ns ha0 ha hb0 hb hc0 hcd hu0 hua hn0 hnn hnh
    unfold parse_ingredient
    have h1 : a ++ ' ' :: b ++ '/' :: cc ++ ' ' :: (us ++ ' ' :: ns)
        = a ++ ' ' :: (b ++ '/' :: (cc ++ ' ' :: (us ++ ' ' :: ns))) := by simp
    rw [show (String.mk (a ++ ' ' :: b ++ '/' :: cc ++ ' ' :: (us ++ ' ' :: ns))).toList
        = a ++ ' ' :: b ++ '/' :: cc ++ ' ' :: (us ++ ' ' :: ns) from rfl, h1, hm]
    show Ingredient.mk
        (String.mk (a ++ ' ' :: (b ++ '/' :: (cc ++ ' ' :: (us ++ ' ' :: ns)))))
        (parse_quantity (String.mk (a ++ ' ' :: (b ++ '/' :: cc))))
        (normalize_unit (some (String.mk us))) (pyStrip (String.mk ns)) = _
    rw [pq_mixed a b cc ha0 hb0 hc0 ha hb hcd hcz, hnorm]
    rfl

/-- C3 counterexample: `"tbsp."` is a key of the synonym table, but on
`"1 tbsp. sugar"` the regex captures only the alphabetic run `"tbsp"` as the
unit, so `name` becomes `". sugar"` rather than the trimmed remainder
`"sugar"` that follows the key. -/
theorem claim_C3_cx :
    ("tbsp." : String) ∈ UNIT_MAP.map Prod.fst ∧
    (parse_ingredient ("1 tbsp. sugar")).unit = some ("tablespoon") ∧
    (parse_ingredient ("1 tbsp. sugar")).quantity ≠ none ∧
    (parse_ingredient ("1 tbsp. sugar")).name = (". sugar") ∧
    (parse_ingredient ("1 tbsp. sugar")).name ≠ pyStrip ("sugar") := by
  refine ⟨by decide, by decide, by decide, by decide, by decide⟩

theorem claim_C3_witness :
    parse_ingredient (String.mk ((QtyForm.mixedQ ['1'] ['1'] ['2']).chars ++
      ' ' :: (['t', 'b', 's', 'p'] ++ ' ' :: ['s', 'u', 'g', 'a', 'r']))) =
      ⟨String.mk ((QtyForm.mixedQ ['1'] ['1'] ['2']).chars ++
        ' ' :: (['t', 'b', 's', 'p'] ++ ' ' :: ['s', 'u', 'g', 'a', 'r'])),
        some (QtyForm.mixedQ ['1'] ['1'] ['2']).value,
        some (unitMapGet (String.mk ['t', 'b', 's', 'p'])),
        String.mk (pyStripChars ['s', 'u', 'g', 'a', 'r'])⟩ :=
  claim_C3 (QtyForm.mixedQ ['1'] ['1'] ['2']) ['t', 'b', 's', 'p']
    ['s', 'u', 'g', 'a', 'r'] (by decide) (by decide) (by decide) (by decide)
    (by decide) (by decide)

end RecipeRag
